import Mathlib

/-!
Verification of the seat-apportionment engine of the electionchecker
repository (src/src/lib.rs), against its natural-language specification.

The engine's support module (the types Votes, Seats, Count, the exact
fraction constructor and the lottery) is declared in lib.rs via a module
line but its file is not part of the sources; those pieces are modelled
from the specification (sections 3, 4.1, 4.2, 4.3) and each such
definition is marked accordingly.  Everything else is translated directly
from lib.rs.

Conventions of the embedding:
* machine counters (u64 in the source) are modelled as Nat; the
  specification fixes exact-rational comparison semantics and guarantees
  the evaluation range cannot overflow;
* the mutable seat-ledger slice becomes an explicit List Seats threaded
  through the functions; the seat pool (a ledger entry whose capacity is
  never consulted) is its held count, a Nat;
* the lottery (randomness source) becomes an explicit oracle parameter,
  a function picking a sublist; LawfulBallot captures the contract from
  specification section 4.3;
* the two panicking program points (max of an empty quality vector, and
  unwrap of the one-element lottery over an empty donor list) are made
  explicit as dedicated result constructors.
-/

namespace ElectionChecker

/-- Modelled from the spec: section 4.2 Seat Ledger (the data module is not
among the sources).  A per-party ledger entry: seats currently held, and an
optional upper bound (the number of nominated candidates); a missing bound
means unbounded.  Ledger entries compare by held count only. -/
structure Seats where
  held : Nat
  cap : Option Nat
  deriving Repr, DecidableEq

/-- Modelled from the spec: held_count accessor. -/
def Seats.count (s : Seats) : Nat := s.held

/-- Modelled from the spec: capacity check, true if the bound is absent or
the held count is strictly below it. -/
def Seats.has_candidates (s : Seats) : Bool :=
  match s.cap with
  | none => true
  | some c => decide (s.held < c)

/-- Modelled from the spec: constructor for a pool holding n seats. -/
def Seats.filled (n : Nat) : Seats := ⟨n, none⟩

/-- Modelled from the spec: constructor for an empty entry bounded by n. -/
def Seats.limited (n : Nat) : Seats := ⟨0, some n⟩

/-- Modelled from the spec: constructor for an empty unbounded entry. -/
def Seats.unlimited : Seats := ⟨0, none⟩

/-- One half of the spec's transfer_one: the receiving side gains a seat. -/
def Seats.gain (s : Seats) : Seats := ⟨s.held + 1, s.cap⟩

/-- One half of the spec's transfer_one: the giving side loses a seat. -/
def Seats.lose (s : Seats) : Seats := ⟨s.held - 1, s.cap⟩

/-- Modelled from the spec: section 4.1 Rational Comparator, an exactly
ordered fraction value; cross-multiplication comparison semantics is the
comparison of exact rationals. -/
def frac (a b : Nat) : ℚ := mkRat a b

/-- The lottery as an explicit oracle: given the tied candidate list (here:
the list of their indices) and a required count, pick that many. -/
def Ballot := List Nat → Nat → List Nat

/-- Modelled from the spec: section 4.3 Tie-Break Lottery contract.  The
selection is a sublist of the candidates of size min(n, len); in
particular, when the tied set is no larger than required it is returned
unchanged. -/
structure LawfulBallot (bal : Ballot) : Prop where
  sublist : ∀ l n, (bal l n).Sublist l
  len : ∀ l n, (bal l n).length = min n l.length

/-- A concrete lawful lottery: pick the first n candidates. -/
def takeBallot : Ballot := fun l n => l.take n

/-- A concrete lawful lottery: pick the last n candidates. -/
def dropBallot : Ballot := fun l n => l.drop (l.length - n)

/-- Rust Ord on Option: none is below some; max of two option qualities. -/
def omax {Q : Type} [LinearOrder Q] : Option Q → Option Q → Option Q
  | none, b => b
  | some x, none => some x
  | some x, some y => some (max x y)

/-- Rust's iterator max over a vector of option qualities: none on the
empty vector (the unwrap there is the panic point), otherwise the greatest
element. -/
def rustMax {Q : Type} [LinearOrder Q] : List (Option Q) → Option (Option Q)
  | [] => none
  | x :: xs => some (xs.foldl omax x)

/-- The per-round quality vector: absent for parties without capacity,
otherwise the supplied criterion (lib.rs lines 12-20). -/
def qualities {Q : Type} (crit : Nat → Seats → Option Q)
    (votes : List Nat) (seats : List Seats) : List (Option Q) :=
  List.zipWith (fun v s => if s.has_candidates then crit v s else none) votes seats

/-- Indices of the parties whose quality equals the round maximum
(lib.rs lines 24-26). -/
def awardedIdx {Q : Type} [LinearOrder Q] (qs : List (Option Q)) (m : Q) :
    List Nat :=
  (List.range qs.length).filter (fun i => decide (qs.getD i none = some m))

/-- Transfer one seat from the pool to each selected entry
(lib.rs lines 28-30). -/
def award (sel : List Nat) (seats : List Seats) : List Seats :=
  seats.enum.map (fun p => if p.1 ∈ sel then p.2.gain else p.2)

/-- Result of one allocation round: the panic on an empty quality vector,
the exhausted outcome (returned None), or a completed round. -/
inductive StepRes where
  | panic
  | exhausted
  | stepped (seats : List Seats) (pool : Nat)
  deriving Repr, DecidableEq

/-- allocate_single_step (lib.rs lines 6-33). -/
def allocate_single_step {Q : Type} [LinearOrder Q] (bal : Ballot)
    (crit : Nat → Seats → Option Q) (votes : List Nat) (seats : List Seats)
    (pool : Nat) : StepRes :=
  let qs := qualities crit votes seats
  match rustMax qs with
  | none => .panic
  | some none => .exhausted
  | some (some m) =>
    let sel := bal (awardedIdx qs m) pool
    .stepped (award sel seats) (pool - sel.length)

/-- First index of the zipped vote/ledger vector satisfying the predicate
(Rust Iterator::find on the zip). -/
def firstIdx {α : Type} (p : α → Bool) : List α → Option Nat
  | [] => none
  | x :: xs => if p x then some 0 else (firstIdx p xs).map (· + 1)

/-- The majority corrector's search for a winner: first party, in input
order, that has candidates, a strict majority of the votes, and not a
strict majority of the seats (lib.rs lines 43-48). -/
def amcFindIdx (votes : List Nat) (seats : List Seats) (tv ts : Nat) :
    Option Nat :=
  firstIdx
    (fun vs => vs.2.has_candidates && decide (2 * vs.1 > tv) &&
      !decide (2 * vs.2.count > ts))
    (List.zip votes seats)

/-- The donor candidates: parties whose held count strictly exceeds the
snapshot value and differs from the winner's updated held count
(lib.rs lines 55-57; the ledger ordering and equality compare held counts
only, per spec section 4.2). -/
def donorPool (seats1 prev : List Seats) (w : Nat) : List Nat :=
  (List.range (min seats1.length prev.length)).filter
    (fun j => decide ((seats1.getD j Seats.unlimited).held >
        (prev.getD j Seats.unlimited).held) &&
      decide ((seats1.getD j Seats.unlimited).held ≠ w))

/-- Total held count over a ledger list (the corrector's total_seats). -/
def heldSum (l : List Seats) : Nat := (l.map Seats.count).sum

/-- absolute_majority_check (lib.rs lines 35-62).  none is the panic of the
unwrap on the one-element lottery over an empty donor list; otherwise the
corrected ledger list is returned. -/
def absolute_majority_check (bal : Ballot) (votes : List Nat)
    (seats prev : List Seats) : Option (List Seats) :=
  match amcFindIdx votes seats votes.sum (heldSum seats) with
  | none => some seats
  | some i =>
    match bal (donorPool (seats.set i (seats.getD i Seats.unlimited).gain) prev
        ((seats.set i (seats.getD i Seats.unlimited).gain).getD i
          Seats.unlimited).held) 1 with
    | [] => none
    | j :: _ =>
      some ((seats.set i (seats.getD i Seats.unlimited).gain).set j
        ((seats.set i (seats.getD i Seats.unlimited).gain).getD j
          Seats.unlimited).lose)

/-- Outcome of the allocation loop: one of the two panic points, or the
final ledgers, the remaining pool, and whether the loop stopped because a
round reported exhaustion. -/
inductive AllocRes where
  | stepPanic
  | amcPanic
  | ok (seats : List Seats) (pool : Nat) (exhausted : Bool)
  deriving Repr, DecidableEq

/-- The loop body of allocate_seats (lib.rs lines 87-107), with explicit
fuel (the loop drains at least one seat per round, so the initial pool is
sufficient fuel; none signals fuel exhaustion and is never reached from
the entry points under a lawful lottery).  The lastW argument is the
snapshot taken immediately before the most recent round. -/
def allocate_seats_go {Q : Type} [LinearOrder Q] (bal : Ballot)
    (crit : Nat → Seats → Option Q) (votes : List Nat) :
    Nat → List Seats → Nat → List Seats → Option AllocRes
  | fuel, seats, pool, lastW =>
    if pool = 0 then
      some (match absolute_majority_check bal votes seats lastW with
        | none => AllocRes.amcPanic
        | some s => AllocRes.ok s 0 false)
    else
      match fuel with
      | 0 => none
      | fuel + 1 =>
        match allocate_single_step bal crit votes seats pool with
        | .panic => some .stepPanic
        | .exhausted => some (.ok seats pool true)
        | .stepped s' p' => allocate_seats_go bal crit votes fuel s' p' seats

/-- allocate_seats (lib.rs lines 81-108). -/
def allocate_seats {Q : Type} [LinearOrder Q] (bal : Ballot)
    (crit : Nat → Seats → Option Q) (votes : List Nat) (seats : List Seats)
    (pool : Nat) : Option AllocRes :=
  allocate_seats_go bal crit votes pool seats pool seats

/-- The highest-averages criterion (lib.rs line 115). -/
def avgCrit : Nat → Seats → Option ℚ :=
  fun v s => some (frac v (s.count + 1))

/-- allocate_per_average (lib.rs lines 110-117). -/
def allocate_per_average (bal : Ballot) (total : Nat) (votes : List Nat)
    (seats : List Seats) : Option AllocRes :=
  allocate_seats bal avgCrit votes seats total

/-- The surplus test (lib.rs lines 123-124). -/
def has_surplus (V S v h : Nat) : Prop := frac v 1 ≥ frac (h * V) S

instance (V S v h : Nat) : Decidable (has_surplus V S v h) := by
  unfold has_surplus; infer_instance

/-- The three-quarters-of-a-quota test (lib.rs lines 133 and 147). -/
def quota34 (V S v : Nat) : Prop := frac v 1 ≥ frac (3 * V) (4 * S)

instance (V S v : Nat) : Decidable (quota34 V S v) := by
  unfold quota34; infer_instance

/-- Phase-one criterion of the largest-surplus method
(lib.rs lines 130-135). -/
def surplusCrit1 (V S : Nat) : Nat → Seats → Option Nat :=
  fun v s =>
    if has_surplus V S v s.count ∧ quota34 V S v then
      some (v * S - s.count * V)
    else none

/-- Phase-two criterion of the largest-surplus method
(lib.rs lines 145-153); note the adjusted capacity test against
held - 1 for parties clearing three quarters of a quota. -/
def surplusCrit2 (V S : Nat) : Nat → Seats → Option ℚ :=
  fun v s =>
    if (if quota34 V S v then has_surplus V S v (s.count - 1)
        else has_surplus V S v s.count) then
      some (frac v (s.count + 1))
    else none

/-- allocate_per_surplus (lib.rs lines 119-156). -/
def allocate_per_surplus (bal : Ballot) (total : Nat) (votes : List Nat)
    (seats : List Seats) : Option AllocRes :=
  match allocate_seats bal (surplusCrit1 votes.sum total) votes seats total with
  | some (.ok s p e) =>
    if 0 < p then allocate_seats bal (surplusCrit2 votes.sum total) votes s p
    else some (.ok s p e)
  | r => r

/-- allocate (lib.rs lines 158-164). -/
def allocate (bal : Ballot) (total : Nat) (votes : List Nat)
    (seats : List Seats) : Option AllocRes :=
  if total ≥ 19 then allocate_per_average bal total votes seats
  else allocate_per_surplus bal total votes seats

/-- The national-threshold criterion (lib.rs lines 174-177). -/
def nationalCrit (V S : Nat) : Nat → Seats → Option ℚ :=
  fun v s =>
    if frac v 1 ≥ frac V S then some (frac v (s.count + 1)) else none

/-- allocate_national (lib.rs lines 166-179). -/
def allocate_national (bal : Ballot) (total : Nat) (votes : List Nat)
    (seats : List Seats) : Option AllocRes :=
  allocate_seats bal (nationalCrit votes.sum total) votes seats total

/-! ### Auxiliary notions used by the statements and proofs -/

/-- A loop state: current ledgers, remaining pool, and the snapshot taken
immediately before the most recent round. -/
structure LState where
  seats : List Seats
  pool : Nat
  lastW : List Seats

/-- Reachability along completed rounds of the allocation loop. -/
inductive Reach {Q : Type} [LinearOrder Q] (bal : Ballot)
    (crit : Nat → Seats → Option Q) (votes : List Nat) :
    LState → LState → Prop where
  | refl (x : LState) : Reach bal crit votes x x
  | tail {x : LState} {s' : List Seats} {p' : Nat} {y : LState} :
      0 < x.pool →
      allocate_single_step bal crit votes x.seats x.pool = .stepped s' p' →
      Reach bal crit votes ⟨s', p', x.seats⟩ y →
      Reach bal crit votes x y

/-- Comparison of option qualities used in the maximum characterisation:
the left value, when present, is dominated by a present right value. -/
def oLe {Q : Type} [LinearOrder Q] (a b : Option Q) : Prop :=
  ∀ x, a = some x → ∃ y, b = some y ∧ x ≤ y

/-- The corrector's winner condition at index i. -/
def amcCond (votes : List Nat) (seats : List Seats) (tv ts i : Nat) : Prop :=
  (seats.getD i Seats.unlimited).has_candidates = true ∧
    2 * votes.getD i 0 > tv ∧ ¬(2 * (seats.getD i Seats.unlimited).held > ts)

/-- Outcome of the allocation loop without the majority corrector, keeping
the final snapshot: used to state where the corrector is invoked. -/
inductive LoopOut where
  | panic
  | out (seats : List Seats) (pool : Nat) (exhausted : Bool)
      (lastW : List Seats)
  deriving Repr, DecidableEq

/-- The allocation loop with the corrector factored out; it returns the
state the loop ends in and the snapshot before the final round. -/
def allocate_seats_noamc_go {Q : Type} [LinearOrder Q] (bal : Ballot)
    (crit : Nat → Seats → Option Q) (votes : List Nat) :
    Nat → List Seats → Nat → List Seats → Option LoopOut
  | fuel, seats, pool, lastW =>
    if pool = 0 then some (.out seats 0 false lastW)
    else
      match fuel with
      | 0 => none
      | fuel + 1 =>
        match allocate_single_step bal crit votes seats pool with
        | .panic => some .panic
        | .exhausted => some (.out seats pool true lastW)
        | .stepped s' p' => allocate_seats_noamc_go bal crit votes fuel s' p' seats

/-- Glueing a loop outcome with the corrector exactly as lib.rs does:
the corrector runs only when the pool was drained (exhausted = false). -/
def glueAmc (bal : Ballot) (votes : List Nat) : LoopOut → AllocRes
  | .panic => .stepPanic
  | .out s p true _ => .ok s p true
  | .out s p false lw =>
    match absolute_majority_check bal votes s lw with
    | none => .amcPanic
    | some s' => .ok s' p false

/-- The allocation loop as claim C1 words it: the corrector is invoked on
both exit paths, with the snapshot taken before the final round. -/
def allocate_seats_specC1_go {Q : Type} [LinearOrder Q] (bal : Ballot)
    (crit : Nat → Seats → Option Q) (votes : List Nat) :
    Nat → List Seats → Nat → List Seats → Option AllocRes
  | fuel, seats, pool, lastW =>
    if pool = 0 then
      some (match absolute_majority_check bal votes seats lastW with
        | none => AllocRes.amcPanic
        | some s => AllocRes.ok s 0 false)
    else
      match fuel with
      | 0 => none
      | fuel + 1 =>
        match allocate_single_step bal crit votes seats pool with
        | .panic => some .stepPanic
        | .exhausted =>
          some (match absolute_majority_check bal votes seats seats with
            | none => AllocRes.amcPanic
            | some s => AllocRes.ok s pool true)
        | .stepped s' p' => allocate_seats_specC1_go bal crit votes fuel s' p' seats

/-- Entry point of the claim-C1 reading of the loop. -/
def allocate_seats_specC1 {Q : Type} [LinearOrder Q] (bal : Ballot)
    (crit : Nat → Seats → Option Q) (votes : List Nat) (seats : List Seats)
    (pool : Nat) : Option AllocRes :=
  allocate_seats_specC1_go bal crit votes pool seats pool seats

/-- allocate_per_surplus under the claim-C1 reading of the loop. -/
def allocate_per_surplus_specC1 (bal : Ballot) (total : Nat)
    (votes : List Nat) (seats : List Seats) : Option AllocRes :=
  match allocate_seats_specC1 bal (surplusCrit1 votes.sum total) votes seats
      total with
  | some (.ok s p e) =>
    if 0 < p then
      allocate_seats_specC1 bal (surplusCrit2 votes.sum total) votes s p
    else some (.ok s p e)
  | r => r

/-- The donor set as claim C3 words it: parties whose seat count in the
final ledger strictly exceeds their snapshot value, excluding the
majority-winner itself (as a party, i.e. by index). -/
def claimDonorSetC3 (seats1 prev : List Seats) (k : Nat) : List Nat :=
  (List.range (min seats1.length prev.length)).filter
    (fun j => decide ((seats1.getD j Seats.unlimited).held >
        (prev.getD j Seats.unlimited).held) && decide (j ≠ k))

/-- The running invariant of a highest-averages style loop (criteria whose
present value is votes/(held+1)): any party j holding a seat won its last
seat against every party i that is still eligible now, so
v_j / h_j ≥ v_i / (h_i + 1) in cross-multiplied form. -/
def dhInv (votes : List Nat) (elig : Nat → Nat → Bool)
    (seats : List Seats) : Prop :=
  ∀ j i, j < seats.length → i < seats.length → j < votes.length →
    i < votes.length →
    1 ≤ (seats.getD j Seats.unlimited).held →
    (seats.getD i Seats.unlimited).has_candidates = true →
    elig (votes.getD i 0) (seats.getD i Seats.unlimited).held = true →
    votes.getD j 0 * ((seats.getD i Seats.unlimited).held + 1) ≥
      votes.getD i 0 * (seats.getD j Seats.unlimited).held

/-- The gain residue of a loop: any party holding a seat was eligible when
it won its last seat, at held count one lower than now. -/
def gainRes (votes : List Nat) (elig : Nat → Nat → Bool)
    (seats : List Seats) : Prop :=
  ∀ j, j < seats.length → j < votes.length →
    1 ≤ (seats.getD j Seats.unlimited).held →
    elig (votes.getD j 0) ((seats.getD j Seats.unlimited).held - 1) = true

/-- The running invariant of the surplus phase (criterion value
v*S - h*V): cross form with all subtractions cleared. -/
def sInv (votes : List Nat) (V S : Nat) (seats : List Seats) : Prop :=
  ∀ j i, j < seats.length → i < seats.length → j < votes.length →
    i < votes.length →
    1 ≤ (seats.getD j Seats.unlimited).held →
    (seats.getD i Seats.unlimited).has_candidates = true →
    has_surplus V S (votes.getD i 0) (seats.getD i Seats.unlimited).held →
    quota34 V S (votes.getD i 0) →
    votes.getD j 0 * S + V + (seats.getD i Seats.unlimited).held * V ≥
      votes.getD i 0 * S + (seats.getD j Seats.unlimited).held * V

/-- Eligibility of the highest-averages criterion: always. -/
def eligAvg : Nat → Nat → Bool := fun _ _ => true

/-- Eligibility of the national-threshold criterion. -/
def eligNat (V S : Nat) : Nat → Nat → Bool :=
  fun v _ => decide (frac v 1 ≥ frac V S)

/-- Eligibility of the phase-two surplus criterion. -/
def eligSur2 (V S : Nat) : Nat → Nat → Bool :=
  fun v h =>
    decide (if quota34 V S v then has_surplus V S v (h - 1)
      else has_surplus V S v h)

/-! ### Lawfulness of the concrete lotteries -/

theorem LawfulBallot.take_all {bal : Ballot} (hb : LawfulBallot bal)
    (l : List Nat) (n : Nat) (h : l.length ≤ n) : bal l n = l :=
  (hb.sublist l n).eq_of_length (by rw [hb.len]; omega)

theorem takeBallot_lawful : LawfulBallot takeBallot :=
  ⟨fun l n => List.take_sublist n l, fun l n => List.length_take n l⟩

theorem dropBallot_lawful : LawfulBallot dropBallot := by
  refine ⟨fun l n => List.drop_sublist _ l, fun l n => ?_⟩
  simp [dropBallot]
  omega

/-! ### Basic facts about the rational comparator -/

theorem frac_eq_div (a b : Nat) : frac a b = (a : ℚ) / (b : ℚ) := by
  unfold frac
  rw [Rat.mkRat_eq_div]
  push_cast
  ring

theorem frac_le_frac_iff (a c : Nat) {b d : Nat} (hb : 0 < b) (hd : 0 < d) :
    frac a b ≤ frac c d ↔ a * d ≤ c * b := by
  rw [frac_eq_div, frac_eq_div,
    div_le_div_iff₀ (by exact_mod_cast hb) (by exact_mod_cast hd)]
  exact_mod_cast Iff.rfl

theorem frac_eq_frac_iff (a c : Nat) {b d : Nat} (hb : 0 < b) (hd : 0 < d) :
    frac a b = frac c d ↔ a * d = c * b := by
  rw [frac_eq_div, frac_eq_div,
    div_eq_div_iff (by positivity) (by positivity)]
  exact_mod_cast Iff.rfl

theorem frac_zero_num (b : Nat) : frac 0 b = 0 := by
  simp [frac]

theorem frac_nonneg (a b : Nat) : 0 ≤ frac a b := by
  rw [frac_eq_div]; positivity

/-! ### List access helpers -/

theorem getD_eq_getElem {α : Type} (l : List α) (d : α) {i : Nat}
    (h : i < l.length) : l.getD i d = l[i] := by
  simp [List.getD_eq_getElem?_getD, List.getElem?_eq_getElem h]

theorem getD_map_count (l : List Seats) (i : Nat) :
    (l.map Seats.count).getD i 0 = (l.getD i Seats.unlimited).held := by
  by_cases h : i < l.length
  · rw [getD_eq_getElem _ _ (by simpa using h), getD_eq_getElem _ _ h]
    simp [Seats.count]
  · have h1 : l.length ≤ i := by omega
    rw [List.getD_eq_default _ _ (by simpa using h1), List.getD_eq_default _ _ h1]
    rfl

theorem sum_eq_range_getD (l : List Nat) :
    l.sum = ∑ i ∈ Finset.range l.length, l.getD i 0 := by
  induction l with
  | nil => simp
  | cons x xs ih =>
    rw [List.sum_cons, List.length_cons, Finset.sum_range_succ', ih]
    simp only [List.getD_cons_succ, List.getD_cons_zero]
    exact Nat.add_comm _ _

theorem heldSum_eq_range (l : List Seats) :
    heldSum l = ∑ i ∈ Finset.range l.length, (l.getD i Seats.unlimited).held := by
  unfold heldSum
  rw [sum_eq_range_getD]
  simp only [List.length_map]
  exact Finset.sum_congr rfl (fun i _ => getD_map_count l i)

theorem getD_le_sum (l : List Nat) {i : Nat} (h : i < l.length) :
    l.getD i 0 ≤ l.sum := by
  rw [sum_eq_range_getD]
  have hnn : ∀ j ∈ Finset.range l.length, (0 : ℕ) ≤ l.getD j 0 :=
    fun j _ => Nat.zero_le _
  exact Finset.single_le_sum hnn (Finset.mem_range.mpr h)

theorem two_getD_le_sum (l : List Nat) {i j : Nat} (hi : i < l.length)
    (hj : j < l.length) (hij : i ≠ j) :
    l.getD i 0 + l.getD j 0 ≤ l.sum := by
  rw [sum_eq_range_getD]
  have hsub : {i, j} ⊆ Finset.range l.length := by
    intro x hx
    rcases Finset.mem_insert.mp hx with h | h
    · exact Finset.mem_range.mpr (h ▸ hi)
    · exact Finset.mem_range.mpr ((Finset.mem_singleton.mp h) ▸ hj)
  calc l.getD i 0 + l.getD j 0 = ∑ x ∈ ({i, j} : Finset Nat), l.getD x 0 := by
        rw [Finset.sum_pair hij]
    _ ≤ _ := Finset.sum_le_sum_of_subset_of_nonneg hsub
        (fun _ _ _ => Nat.zero_le _)

theorem heldSum_set (l : List Seats) {i : Nat} (h : i < l.length)
    (x : Seats) :
    heldSum (l.set i x) + (l.getD i Seats.unlimited).held =
      heldSum l + x.held := by
  rw [heldSum_eq_range, heldSum_eq_range, List.length_set]
  have hmem : i ∈ Finset.range l.length := Finset.mem_range.mpr h
  rw [← Finset.sum_erase_add _ _ hmem, ← Finset.sum_erase_add _ _ hmem]
  have hsame : ∀ j ∈ (Finset.range l.length).erase i,
      ((l.set i x).getD j Seats.unlimited).held =
        (l.getD j Seats.unlimited).held := by
    intro j hj
    obtain ⟨hne, hjr⟩ := Finset.mem_erase.mp hj
    have hjl : j < l.length := Finset.mem_range.mp hjr
    have hjs : j < (l.set i x).length := by rw [List.length_set]; exact hjl
    rw [getD_eq_getElem _ _ hjs, getD_eq_getElem _ _ hjl]
    congr 1
    exact List.getElem_set_ne (by omega) hjs
  rw [Finset.sum_congr rfl hsame]
  have his : i < (l.set i x).length := by rw [List.length_set]; exact h
  have hset : ((l.set i x).getD i Seats.unlimited).held = x.held := by
    rw [getD_eq_getElem _ _ his]
    congr 1
    exact List.getElem_set_self his
  rw [hset]
  omega

theorem getD_set_self (l : List Seats) {i : Nat} (h : i < l.length)
    (x : Seats) : (l.set i x).getD i Seats.unlimited = x := by
  have his : i < (l.set i x).length := by rw [List.length_set]; exact h
  rw [getD_eq_getElem _ _ his]
  exact List.getElem_set_self his

theorem getD_set_ne (l : List Seats) {i j : Nat} (hne : i ≠ j) (x : Seats) :
    (l.set i x).getD j Seats.unlimited = l.getD j Seats.unlimited := by
  by_cases hj : j < l.length
  · have hjs : j < (l.set i x).length := by rw [List.length_set]; exact hj
    rw [getD_eq_getElem _ _ hjs, getD_eq_getElem _ _ hj]
    exact List.getElem_set_ne hne hjs
  · have h1 : l.length ≤ j := by omega
    rw [List.getD_eq_default _ _ (by rw [List.length_set]; exact h1),
      List.getD_eq_default _ _ h1]

/-! ### The round maximum -/

theorem oLe_refl {Q : Type} [LinearOrder Q] (a : Option Q) : oLe a a :=
  fun x hx => ⟨x, hx, le_refl x⟩

theorem oLe_trans {Q : Type} [LinearOrder Q] {a b c : Option Q}
    (h1 : oLe a b) (h2 : oLe b c) : oLe a c := by
  intro x hx
  obtain ⟨y, hy, hxy⟩ := h1 x hx
  obtain ⟨z, hz, hyz⟩ := h2 y hy
  exact ⟨z, hz, le_trans hxy hyz⟩

theorem oLe_omax_left {Q : Type} [LinearOrder Q] (a b : Option Q) :
    oLe a (omax a b) := by
  intro x hx
  cases a with
  | none => simp at hx
  | some v =>
    cases hx
    cases b with
    | none => exact ⟨x, rfl, le_refl x⟩
    | some w => exact ⟨max x w, rfl, le_max_left x w⟩

theorem oLe_omax_right {Q : Type} [LinearOrder Q] (a b : Option Q) :
    oLe b (omax a b) := by
  intro x hx
  cases b with
  | none => simp at hx
  | some w =>
    cases hx
    cases a with
    | none => exact ⟨x, rfl, le_refl x⟩
    | some v => exact ⟨max v x, rfl, le_max_right v x⟩

theorem omax_eq_or {Q : Type} [LinearOrder Q] (a b : Option Q) :
    omax a b = a ∨ omax a b = b := by
  cases a with
  | none => right; rfl
  | some v =>
    cases b with
    | none => left; rfl
    | some w =>
      rcases max_choice v w with h | h
      · left; simp [omax, h]
      · right; simp [omax, h]

theorem foldl_omax_oLe {Q : Type} [LinearOrder Q] (l : List (Option Q))
    (a : Option Q) :
    oLe a (l.foldl omax a) ∧ ∀ q ∈ l, oLe q (l.foldl omax a) := by
  induction l generalizing a with
  | nil => exact ⟨oLe_refl a, by simp⟩
  | cons x xs ih =>
    obtain ⟨h1, h2⟩ := ih (omax a x)
    refine ⟨oLe_trans (oLe_omax_left a x) h1, ?_⟩
    intro q hq
    rcases List.mem_cons.mp hq with h | h
    · rw [h]; exact oLe_trans (oLe_omax_right a x) h1
    · exact h2 q h

theorem foldl_omax_mem {Q : Type} [LinearOrder Q] (l : List (Option Q))
    (a : Option Q) : l.foldl omax a = a ∨ l.foldl omax a ∈ l := by
  induction l generalizing a with
  | nil => left; rfl
  | cons x xs ih =>
    rcases ih (omax a x) with h | h
    · rcases omax_eq_or a x with h' | h'
      · left; rw [List.foldl_cons, h, h']
      · right; rw [List.foldl_cons, h, h']; exact List.mem_cons_self x xs
    · right; exact List.mem_cons_of_mem x h

theorem rustMax_eq_none_iff {Q : Type} [LinearOrder Q]
    {qs : List (Option Q)} : rustMax qs = none ↔ qs = [] := by
  cases qs <;> simp [rustMax]

theorem rustMax_mem {Q : Type} [LinearOrder Q] {qs : List (Option Q)}
    {m : Option Q} (h : rustMax qs = some m) : m ∈ qs := by
  cases qs with
  | nil => simp [rustMax] at h
  | cons x xs =>
    simp only [rustMax, Option.some.injEq] at h
    rcases foldl_omax_mem xs x with h' | h'
    · rw [← h, h']; exact List.mem_cons_self x xs
    · rw [← h]; exact List.mem_cons_of_mem x h'

theorem rustMax_ub {Q : Type} [LinearOrder Q] {qs : List (Option Q)}
    {m : Option Q} (h : rustMax qs = some m) : ∀ q ∈ qs, oLe q m := by
  cases qs with
  | nil => simp [rustMax] at h
  | cons x xs =>
    simp only [rustMax, Option.some.injEq] at h
    intro q hq
    rcases List.mem_cons.mp hq with h' | h'
    · exact h ▸ h' ▸ (foldl_omax_oLe xs x).1
    · exact h ▸ (foldl_omax_oLe xs x).2 q h'

theorem rustMax_all_none {Q : Type} [LinearOrder Q] {qs : List (Option Q)}
    (hne : qs ≠ []) (hall : ∀ q ∈ qs, q = none) : rustMax qs = some none := by
  cases hq : rustMax qs with
  | none => exact absurd (rustMax_eq_none_iff.mp hq) hne
  | some m => rw [hall m (rustMax_mem hq)]

theorem rustMax_none_all {Q : Type} [LinearOrder Q] {qs : List (Option Q)}
    (h : rustMax qs = some none) : ∀ q ∈ qs, q = none := by
  intro q hq
  cases q with
  | none => rfl
  | some v =>
    obtain ⟨y, hy, _⟩ := rustMax_ub h _ hq v rfl
    simp at hy

/-! ### The quality vector -/

theorem length_qualities {Q : Type} (crit : Nat → Seats → Option Q)
    (votes : List Nat) (seats : List Seats) :
    (qualities crit votes seats).length = min votes.length seats.length :=
  List.length_zipWith _ _ _

theorem qualities_eq_nil_iff {Q : Type} (crit : Nat → Seats → Option Q)
    (votes : List Nat) (seats : List Seats) :
    qualities crit votes seats = [] ↔ votes = [] ∨ seats = [] := by
  cases votes <;> cases seats <;> simp [qualities]

theorem qualities_getD {Q : Type} (crit : Nat → Seats → Option Q)
    (votes : List Nat) (seats : List Seats) {i : Nat}
    (hv : i < votes.length) (hs : i < seats.length) :
    (qualities crit votes seats).getD i none =
      if (seats.getD i Seats.unlimited).has_candidates then
        crit (votes.getD i 0) (seats.getD i Seats.unlimited)
      else none := by
  have hq : i < (qualities crit votes seats).length := by
    rw [length_qualities]; omega
  rw [getD_eq_getElem _ _ hq, getD_eq_getElem _ _ hv, getD_eq_getElem _ _ hs]
  unfold qualities
  rw [List.getElem_zipWith]

/-! ### Awarded indices and seat transfers -/

theorem mem_awardedIdx {Q : Type} [LinearOrder Q] {qs : List (Option Q)}
    {m : Q} {i : Nat} :
    i ∈ awardedIdx qs m ↔ i < qs.length ∧ qs.getD i none = some m := by
  simp [awardedIdx, List.mem_filter, List.mem_range]

theorem nodup_awardedIdx {Q : Type} [LinearOrder Q] (qs : List (Option Q))
    (m : Q) : (awardedIdx qs m).Nodup :=
  (List.nodup_range _).filter _

theorem awardedIdx_ne_nil {Q : Type} [LinearOrder Q] {qs : List (Option Q)}
    {m : Q} (h : some m ∈ qs) : awardedIdx qs m ≠ [] := by
  obtain ⟨i, hi, hv⟩ := List.mem_iff_getElem.mp h
  exact List.ne_nil_of_mem
    (mem_awardedIdx.mpr ⟨hi, by rw [getD_eq_getElem _ _ hi, hv]⟩)

theorem length_award (sel : List Nat) (seats : List Seats) :
    (award sel seats).length = seats.length := by
  simp [award]

theorem award_getD (sel : List Nat) (seats : List Seats) {i : Nat}
    (h : i < seats.length) :
    (award sel seats).getD i Seats.unlimited =
      if i ∈ sel then (seats.getD i Seats.unlimited).gain
      else seats.getD i Seats.unlimited := by
  have ha : i < (award sel seats).length := by rw [length_award]; exact h
  rw [getD_eq_getElem _ _ ha, getD_eq_getElem _ _ h]
  unfold award
  rw [List.getElem_map, List.getElem_enum]

theorem heldSum_award {sel : List Nat} {seats : List Seats}
    (hnd : sel.Nodup) (hsub : ∀ j ∈ sel, j < seats.length) :
    heldSum (award sel seats) = heldSum seats + sel.length := by
  rw [heldSum_eq_range, heldSum_eq_range, length_award]
  have hcg : ∀ i ∈ Finset.range seats.length,
      ((award sel seats).getD i Seats.unlimited).held =
        (seats.getD i Seats.unlimited).held + (if i ∈ sel then 1 else 0) := by
    intro i hi
    rw [award_getD sel seats (Finset.mem_range.mp hi)]
    split <;> simp [Seats.gain]
  rw [Finset.sum_congr rfl hcg, Finset.sum_add_distrib]
  congr 1
  calc ∑ i ∈ Finset.range seats.length, (if i ∈ sel then 1 else 0)
      = ∑ i ∈ Finset.range seats.length, (if i ∈ sel.toFinset then 1 else 0) := by
        refine Finset.sum_congr rfl (fun i _ => ?_)
        simp [List.mem_toFinset]
    _ = ∑ i ∈ Finset.range seats.length ∩ sel.toFinset, 1 := by
        rw [Finset.sum_ite_mem]
    _ = (Finset.range seats.length ∩ sel.toFinset).card := by
        rw [Finset.sum_const, smul_eq_mul, mul_one]
    _ = sel.toFinset.card := by
        congr 1
        rw [Finset.inter_eq_right]
        intro x hx
        exact Finset.mem_range.mpr (hsub x (List.mem_toFinset.mp hx))
    _ = sel.length := List.toFinset_card_of_nodup hnd

/-! ### One round -/

theorem step_char {Q : Type} [LinearOrder Q] (bal : Ballot)
    (crit : Nat → Seats → Option Q) (votes : List Nat) (seats : List Seats)
    (pool : Nat) :
    allocate_single_step bal crit votes seats pool =
      match rustMax (qualities crit votes seats) with
      | none => .panic
      | some none => .exhausted
      | some (some m) =>
        .stepped
          (award (bal (awardedIdx (qualities crit votes seats) m) pool) seats)
          (pool - (bal (awardedIdx (qualities crit votes seats) m) pool).length) :=
  rfl

theorem step_panic_iff {Q : Type} [LinearOrder Q] (bal : Ballot)
    (crit : Nat → Seats → Option Q) (votes : List Nat) (seats : List Seats)
    (pool : Nat) :
    allocate_single_step bal crit votes seats pool = .panic ↔
      votes = [] ∨ seats = [] := by
  rw [step_char]
  cases hq : rustMax (qualities crit votes seats) with
  | none =>
    simpa using (qualities_eq_nil_iff crit votes seats).mp
      (rustMax_eq_none_iff.mp hq)
  | some m =>
    have hne : qualities crit votes seats ≠ [] := by
      intro hnil; rw [hnil] at hq; simp [rustMax] at hq
    cases m with
    | none =>
      simp only []
      constructor
      · intro h; exact absurd h (by simp)
      · intro h; exact absurd ((qualities_eq_nil_iff crit votes seats).mpr h) hne
    | some mv =>
      simp only []
      constructor
      · intro h; exact absurd h (by simp)
      · intro h; exact absurd ((qualities_eq_nil_iff crit votes seats).mpr h) hne

theorem step_stepped_inv {Q : Type} [LinearOrder Q] {bal : Ballot}
    {crit : Nat → Seats → Option Q} {votes : List Nat} {seats s' : List Seats}
    {pool p' : Nat}
    (h : allocate_single_step bal crit votes seats pool = .stepped s' p') :
    ∃ m, rustMax (qualities crit votes seats) = some (some m) ∧
      s' = award (bal (awardedIdx (qualities crit votes seats) m) pool) seats ∧
      p' = pool - (bal (awardedIdx (qualities crit votes seats) m) pool).length := by
  rw [step_char] at h
  cases hq : rustMax (qualities crit votes seats) with
  | none => rw [hq] at h; simp at h
  | some m =>
    cases m with
    | none => rw [hq] at h; simp at h
    | some mv =>
      rw [hq] at h
      simp only [StepRes.stepped.injEq] at h
      exact ⟨mv, rfl, h.1.symm, h.2.symm⟩

theorem step_exhausted_inv {Q : Type} [LinearOrder Q] {bal : Ballot}
    {crit : Nat → Seats → Option Q} {votes : List Nat} {seats : List Seats}
    {pool : Nat}
    (h : allocate_single_step bal crit votes seats pool = .exhausted) :
    rustMax (qualities crit votes seats) = some none := by
  rw [step_char] at h
  cases hq : rustMax (qualities crit votes seats) with
  | none => rw [hq] at h; simp at h
  | some m =>
    cases m with
    | none => rfl
    | some mv => rw [hq] at h; simp at h

/-- At an exhausted round every party with candidates has an absent
quality. -/
theorem step_exhausted_crit_none {Q : Type} [LinearOrder Q] {bal : Ballot}
    {crit : Nat → Seats → Option Q} {votes : List Nat} {seats : List Seats}
    {pool : Nat}
    (h : allocate_single_step bal crit votes seats pool = .exhausted)
    {i : Nat} (hv : i < votes.length) (hs : i < seats.length)
    (hc : (seats.getD i Seats.unlimited).has_candidates = true) :
    crit (votes.getD i 0) (seats.getD i Seats.unlimited) = none := by
  have hall := rustMax_none_all (step_exhausted_inv h)
  have hq : i < (qualities crit votes seats).length := by
    rw [length_qualities]; omega
  have hmem : (qualities crit votes seats).getD i none ∈
      qualities crit votes seats := by
    rw [getD_eq_getElem _ _ hq]; exact List.getElem_mem hq
  have := hall _ hmem
  rw [qualities_getD crit votes seats hv hs, hc] at this
  simpa using this

/-- Membership of an awarded index carries candidacy and the maximal
quality. -/
theorem awarded_quality {Q : Type} [LinearOrder Q]
    {crit : Nat → Seats → Option Q} {votes : List Nat} {seats : List Seats}
    {m : Q} {j : Nat}
    (hj : j ∈ awardedIdx (qualities crit votes seats) m) :
    j < votes.length ∧ j < seats.length ∧
      (seats.getD j Seats.unlimited).has_candidates = true ∧
      crit (votes.getD j 0) (seats.getD j Seats.unlimited) = some m := by
  obtain ⟨hlen, hval⟩ := mem_awardedIdx.mp hj
  rw [length_qualities] at hlen
  have hv : j < votes.length := by omega
  have hs : j < seats.length := by omega
  rw [qualities_getD crit votes seats hv hs] at hval
  by_cases hc : (seats.getD j Seats.unlimited).has_candidates
  · rw [if_pos hc] at hval; exact ⟨hv, hs, hc, hval⟩
  · rw [if_neg hc] at hval; simp at hval

/-- Every present quality is dominated by the round maximum. -/
theorem quality_le_max {Q : Type} [LinearOrder Q]
    {crit : Nat → Seats → Option Q} {votes : List Nat} {seats : List Seats}
    {m : Q}
    (hm : rustMax (qualities crit votes seats) = some (some m))
    {i : Nat} (hv : i < votes.length) (hs : i < seats.length)
    (hc : (seats.getD i Seats.unlimited).has_candidates = true)
    {q : Q} (hq : crit (votes.getD i 0) (seats.getD i Seats.unlimited) = some q) :
    q ≤ m := by
  have hlen : i < (qualities crit votes seats).length := by
    rw [length_qualities]; omega
  have hmem : (qualities crit votes seats).getD i none ∈
      qualities crit votes seats := by
    rw [getD_eq_getElem _ _ hlen]; exact List.getElem_mem hlen
  have hval : (qualities crit votes seats).getD i none = some q := by
    rw [qualities_getD crit votes seats hv hs, hc, if_pos rfl]; exact hq
  obtain ⟨y, hy, hqy⟩ := rustMax_ub hm _ hmem q hval
  cases hy
  exact hqy

/-! ### Facts about a completed round under a lawful lottery -/

theorem stepped_skeleton {Q : Type} [LinearOrder Q] {bal : Ballot}
    {crit : Nat → Seats → Option Q} {votes : List Nat} {seats s' : List Seats}
    {pool p' : Nat} (hb : LawfulBallot bal)
    (h : allocate_single_step bal crit votes seats pool = .stepped s' p') :
    ∃ m sel, rustMax (qualities crit votes seats) = some (some m) ∧
      sel = bal (awardedIdx (qualities crit votes seats) m) pool ∧
      sel.Nodup ∧ (∀ j ∈ sel, j ∈ awardedIdx (qualities crit votes seats) m) ∧
      s' = award sel seats ∧ p' = pool - sel.length ∧
      sel.length = min pool (awardedIdx (qualities crit votes seats) m).length := by
  obtain ⟨m, hm, hs, hp⟩ := step_stepped_inv h
  refine ⟨m, _, hm, rfl, ?_, ?_, hs, hp, hb.len _ _⟩
  · exact (hb.sublist _ _).nodup (nodup_awardedIdx _ _)
  · exact fun j hj => (hb.sublist _ _).subset hj

theorem stepped_length {Q : Type} [LinearOrder Q] {bal : Ballot}
    {crit : Nat → Seats → Option Q} {votes : List Nat} {seats s' : List Seats}
    {pool p' : Nat} (hb : LawfulBallot bal)
    (h : allocate_single_step bal crit votes seats pool = .stepped s' p') :
    s'.length = seats.length := by
  obtain ⟨m, sel, _, _, _, _, hs, _, _⟩ := stepped_skeleton hb h
  rw [hs, length_award]

theorem sel_lt_length {Q : Type} [LinearOrder Q]
    {crit : Nat → Seats → Option Q} {votes : List Nat} {seats : List Seats}
    {m : Q} {sel : List Nat}
    (hsel : ∀ j ∈ sel, j ∈ awardedIdx (qualities crit votes seats) m) :
    ∀ j ∈ sel, j < seats.length := by
  intro j hj
  obtain ⟨hlen, _⟩ := mem_awardedIdx.mp (hsel j hj)
  rw [length_qualities] at hlen
  omega

theorem stepped_heldSum {Q : Type} [LinearOrder Q] {bal : Ballot}
    {crit : Nat → Seats → Option Q} {votes : List Nat} {seats s' : List Seats}
    {pool p' : Nat} (hb : LawfulBallot bal)
    (h : allocate_single_step bal crit votes seats pool = .stepped s' p') :
    heldSum s' + p' = heldSum seats + pool ∧ p' ≤ pool := by
  obtain ⟨m, sel, hm, hbal, hnd, hsel, hs, hp, hlen⟩ := stepped_skeleton hb h
  have hsub := sel_lt_length hsel
  have hsum : heldSum s' = heldSum seats + sel.length := by
    rw [hs]; exact heldSum_award hnd hsub
  have hle : sel.length ≤ pool := by rw [hlen]; omega
  omega

theorem stepped_pool_lt {Q : Type} [LinearOrder Q] {bal : Ballot}
    {crit : Nat → Seats → Option Q} {votes : List Nat} {seats s' : List Seats}
    {pool p' : Nat} (hb : LawfulBallot bal)
    (h : allocate_single_step bal crit votes seats pool = .stepped s' p')
    (hp : 0 < pool) : p' < pool := by
  obtain ⟨m, sel, hm, hbal, hnd, hsel, hs, hpe, hlen⟩ := stepped_skeleton hb h
  have hne : awardedIdx (qualities crit votes seats) m ≠ [] :=
    awardedIdx_ne_nil (rustMax_mem hm)
  have h1 : 0 < (awardedIdx (qualities crit votes seats) m).length :=
    List.length_pos.mpr hne
  have h2 : 0 < sel.length := by rw [hlen]; omega
  omega

theorem stepped_held {Q : Type} [LinearOrder Q] {bal : Ballot}
    {crit : Nat → Seats → Option Q} {votes : List Nat} {seats s' : List Seats}
    {pool p' : Nat} (hb : LawfulBallot bal)
    (h : allocate_single_step bal crit votes seats pool = .stepped s' p') :
    ∀ i, (seats.getD i Seats.unlimited).held ≤ (s'.getD i Seats.unlimited).held ∧
      (s'.getD i Seats.unlimited).cap = (seats.getD i Seats.unlimited).cap := by
  obtain ⟨m, sel, hm, hbal, hnd, hsel, hs, hpe, hlen⟩ := stepped_skeleton hb h
  intro i
  by_cases hi : i < seats.length
  · rw [hs, award_getD sel seats hi]
    split <;> simp [Seats.gain]
  · have h1 : seats.length ≤ i := by omega
    have h2 : s'.length ≤ i := by
      rw [stepped_length hb h]; omega
    rw [List.getD_eq_default _ _ h1, List.getD_eq_default _ _ h2]
    exact ⟨le_refl _, rfl⟩

/-- Candidacy can only be lost as held counts grow. -/
theorem cand_antitone {a b : Seats} (hheld : a.held ≤ b.held)
    (hcap : b.cap = a.cap) (hc : b.has_candidates = true) :
    a.has_candidates = true := by
  unfold Seats.has_candidates at hc ⊢
  rw [hcap] at hc
  revert hc
  cases a.cap with
  | none => intro hc; rfl
  | some c =>
    intro hc
    have hc' : b.held < c := by simpa using hc
    have hlt : a.held < c := by omega
    simpa using hlt

/-! ### The first-match search and the corrector -/

theorem firstIdx_some_char {α : Type} (d : α) {p : α → Bool} {l : List α}
    {k : Nat} (h : firstIdx p l = some k) :
    k < l.length ∧ p (l.getD k d) = true ∧ ∀ j < k, p (l.getD j d) = false := by
  induction l generalizing k with
  | nil => simp [firstIdx] at h
  | cons x xs ih =>
    by_cases hx : p x
    · rw [firstIdx, if_pos hx] at h
      cases h
      exact ⟨by simp, hx, by omega⟩
    · rw [firstIdx, if_neg hx] at h
      cases hkx : firstIdx p xs with
      | none => rw [hkx] at h; simp at h
      | some k' =>
        rw [hkx] at h
        simp only [Option.map_some', Option.some.injEq] at h
        obtain ⟨h1, h2, h3⟩ := ih hkx
        subst h
        refine ⟨by simp; omega, by simpa using h2, ?_⟩
        intro j hj
        cases j with
        | zero => simpa using hx
        | succ j' => simpa using h3 j' (by omega)

theorem firstIdx_none_char {α : Type} {p : α → Bool} {l : List α}
    (h : firstIdx p l = none) : ∀ x ∈ l, p x = false := by
  induction l with
  | nil => simp
  | cons x xs ih =>
    by_cases hx : p x
    · rw [firstIdx, if_pos hx] at h; simp at h
    · rw [firstIdx, if_neg hx] at h
      intro y hy
      rcases List.mem_cons.mp hy with hyx | hyx
      · rw [hyx]; simpa using hx
      · exact ih (by cases hfx : firstIdx p xs <;> simp [hfx] at h ⊢) y hyx

theorem zip_getD (votes : List Nat) (seats : List Seats) {i : Nat}
    (hv : i < votes.length) (hs : i < seats.length) :
    (List.zip votes seats).getD i (0, Seats.unlimited) =
      (votes.getD i 0, seats.getD i Seats.unlimited) := by
  have hz : i < (List.zip votes seats).length := by
    rw [List.length_zip]; simp; omega
  rw [getD_eq_getElem _ _ hz, getD_eq_getElem _ _ hv, getD_eq_getElem _ _ hs]
  exact List.getElem_zip

theorem amcFind_some_char {votes : List Nat} {seats : List Seats}
    {tv ts k : Nat} (h : amcFindIdx votes seats tv ts = some k) :
    k < votes.length ∧ k < seats.length ∧ amcCond votes seats tv ts k ∧
      ∀ j < k, ¬amcCond votes seats tv ts j := by
  obtain ⟨hk, hp, hprev⟩ := firstIdx_some_char (0, Seats.unlimited) h
  rw [List.length_zip] at hk
  simp only [lt_inf_iff] at hk
  have hkv : k < votes.length := hk.1
  have hks : k < seats.length := hk.2
  rw [zip_getD votes seats hkv hks] at hp
  simp only [Bool.and_eq_true, Bool.not_eq_true', decide_eq_true_eq,
    decide_eq_false_iff_not] at hp
  refine ⟨hkv, hks, ⟨hp.1.1, hp.1.2, by simpa [Seats.count] using hp.2⟩, ?_⟩
  intro j hj
  have hjv : j < votes.length := by omega
  have hjs : j < seats.length := by omega
  have hpj := hprev j hj
  rw [zip_getD votes seats hjv hjs] at hpj
  intro hcond
  obtain ⟨h1, h2, h3⟩ := hcond
  simp only [Bool.and_eq_false_iff, Bool.not_eq_false', decide_eq_true_eq,
    decide_eq_false_iff_not] at hpj
  rcases hpj with (h' | h') | h'
  · rw [h1] at h'; simp at h'
  · exact h' h2
  · exact h3 (by simpa [Seats.count] using h')

theorem amcFind_none_char {votes : List Nat} {seats : List Seats}
    {tv ts : Nat} (h : amcFindIdx votes seats tv ts = none) :
    ∀ j, j < votes.length → j < seats.length →
      ¬amcCond votes seats tv ts j := by
  intro j hjv hjs hcond
  have hz : j < (List.zip votes seats).length := by
    rw [List.length_zip]; simp; omega
  have hmem : (List.zip votes seats).getD j (0, Seats.unlimited) ∈
      List.zip votes seats := by
    rw [getD_eq_getElem _ _ hz]; exact List.getElem_mem hz
  have hpj := firstIdx_none_char h _ hmem
  rw [zip_getD votes seats hjv hjs] at hpj
  obtain ⟨h1, h2, h3⟩ := hcond
  simp only [Bool.and_eq_false_iff, Bool.not_eq_false', decide_eq_true_eq,
    decide_eq_false_iff_not] at hpj
  rcases hpj with (h' | h') | h'
  · rw [h1] at h'; simp at h'
  · exact h' h2
  · exact h3 (by simpa [Seats.count] using h')

theorem mem_donorPool {seats1 prev : List Seats} {w j : Nat} :
    j ∈ donorPool seats1 prev w ↔
      j < seats1.length ∧ j < prev.length ∧
      (prev.getD j Seats.unlimited).held < (seats1.getD j Seats.unlimited).held ∧
      (seats1.getD j Seats.unlimited).held ≠ w := by
  simp only [donorPool, List.mem_filter, List.mem_range, Bool.and_eq_true,
    decide_eq_true_eq, gt_iff_lt, ne_eq, lt_min_iff]
  tauto

/-- Inversion of a corrector run that returned ledgers. -/
theorem amc_some_inv {bal : Ballot} {votes : List Nat}
    {seats prev s' : List Seats}
    (h : absolute_majority_check bal votes seats prev = some s') :
    (amcFindIdx votes seats votes.sum (heldSum seats) = none ∧ s' = seats) ∨
    ∃ k j rest,
      amcFindIdx votes seats votes.sum (heldSum seats) = some k ∧
      bal (donorPool (seats.set k (seats.getD k Seats.unlimited).gain) prev
        ((seats.set k (seats.getD k Seats.unlimited).gain).getD k
          Seats.unlimited).held) 1 = j :: rest ∧
      s' = (seats.set k (seats.getD k Seats.unlimited).gain).set j
        ((seats.set k (seats.getD k Seats.unlimited).gain).getD j
          Seats.unlimited).lose := by
  unfold absolute_majority_check at h
  split at h
  next hf =>
    left
    simp only [Option.some.injEq] at h
    exact ⟨hf, h.symm⟩
  next k hf =>
    right
    split at h
    next hbp => simp at h
    next j rest hbp =>
      simp only [Option.some.injEq] at h
      exact ⟨k, j, rest, hf, hbp, h.symm⟩

/-- Inversion of a corrector run that hit the donor-lottery unwrap. -/
theorem amc_none_inv {bal : Ballot} {votes : List Nat}
    {seats prev : List Seats}
    (h : absolute_majority_check bal votes seats prev = none) :
    ∃ k, amcFindIdx votes seats votes.sum (heldSum seats) = some k ∧
      bal (donorPool (seats.set k (seats.getD k Seats.unlimited).gain) prev
        ((seats.set k (seats.getD k Seats.unlimited).gain).getD k
          Seats.unlimited).held) 1 = [] := by
  unfold absolute_majority_check at h
  split at h
  next hf => simp at h
  next k hf =>
    split at h
    next hbp => exact ⟨k, hf, hbp⟩
    next j rest hbp => simp at h

/-- A fired corrector moves exactly one seat from the donor to the winner:
index-level description of the corrected ledgers. -/
theorem amc_fire_effect {bal : Ballot}
    {seats prev s' : List Seats} {k j : Nat} {rest : List Nat}
    (hb : LawfulBallot bal)
    (hks : k < seats.length)
    (hbp : bal (donorPool (seats.set k (seats.getD k Seats.unlimited).gain) prev
        ((seats.set k (seats.getD k Seats.unlimited).gain).getD k
          Seats.unlimited).held) 1 = j :: rest)
    (hs' : s' = (seats.set k (seats.getD k Seats.unlimited).gain).set j
        ((seats.set k (seats.getD k Seats.unlimited).gain).getD j
          Seats.unlimited).lose) :
    j ≠ k ∧
    j ∈ donorPool (seats.set k (seats.getD k Seats.unlimited).gain) prev
      ((seats.getD k Seats.unlimited).held + 1) ∧
    (s'.getD k Seats.unlimited).held = (seats.getD k Seats.unlimited).held + 1 ∧
    (s'.getD j Seats.unlimited).held + 1 = (seats.getD j Seats.unlimited).held ∧
    (∀ i, i ≠ k → i ≠ j →
      s'.getD i Seats.unlimited = seats.getD i Seats.unlimited) ∧
    heldSum s' = heldSum seats ∧ s'.length = seats.length := by
  have hw : ((seats.set k (seats.getD k Seats.unlimited).gain).getD k
      Seats.unlimited).held = (seats.getD k Seats.unlimited).held + 1 := by
    rw [getD_set_self seats hks]; rfl
  have hjmem : j ∈ donorPool (seats.set k (seats.getD k Seats.unlimited).gain)
      prev ((seats.set k (seats.getD k Seats.unlimited).gain).getD k
        Seats.unlimited).held := by
    have hsub := (hb.sublist (donorPool
      (seats.set k (seats.getD k Seats.unlimited).gain) prev
      ((seats.set k (seats.getD k Seats.unlimited).gain).getD k
        Seats.unlimited).held) 1).subset
    rw [hbp] at hsub
    exact hsub (List.mem_cons_self j rest)
  obtain ⟨hj1, hj2, hj3, hj4⟩ := mem_donorPool.mp hjmem
  have hjk : j ≠ k := fun hjk => hj4 (by rw [hjk, hw])
  have hjheld : (seats.set k (seats.getD k Seats.unlimited).gain).getD j
      Seats.unlimited = seats.getD j Seats.unlimited :=
    getD_set_ne seats (by omega) _
  have hjs : j < seats.length := by rw [List.length_set] at hj1; exact hj1
  have hkval : s'.getD k Seats.unlimited =
      (seats.getD k Seats.unlimited).gain := by
    rw [hs', getD_set_ne _ (by omega), getD_set_self seats hks]
  have hjval : s'.getD j Seats.unlimited =
      (seats.getD j Seats.unlimited).lose := by
    rw [hs', getD_set_self _ (by rw [List.length_set]; exact hjs), hjheld]
  have hjpos : 1 ≤ (seats.getD j Seats.unlimited).held := by
    rw [hjheld] at hj3; omega
  refine ⟨hjk, by rw [hw] at hjmem; exact hjmem, by rw [hkval]; rfl, ?_, ?_, ?_, ?_⟩
  · rw [hjval]
    show (seats.getD j Seats.unlimited).held - 1 + 1 = _
    omega
  · intro i hik hij
    rw [hs', getD_set_ne _ (fun he => hij he.symm), getD_set_ne _ (fun he => hik he.symm)]
  · have e1 : heldSum (seats.set k (seats.getD k Seats.unlimited).gain) +
        (seats.getD k Seats.unlimited).held =
        heldSum seats + (seats.getD k Seats.unlimited).gain.held :=
      heldSum_set seats hks _
    have hjlt : j < (seats.set k (seats.getD k Seats.unlimited).gain).length :=
      hj1
    have e2 : heldSum s' +
        ((seats.set k (seats.getD k Seats.unlimited).gain).getD j
          Seats.unlimited).held =
        heldSum (seats.set k (seats.getD k Seats.unlimited).gain) +
          ((seats.set k (seats.getD k Seats.unlimited).gain).getD j
            Seats.unlimited).lose.held := by
      rw [hs']
      exact heldSum_set _ hjlt _
    have hg : (seats.getD k Seats.unlimited).gain.held =
        (seats.getD k Seats.unlimited).held + 1 := rfl
    have hl : ((seats.set k (seats.getD k Seats.unlimited).gain).getD j
        Seats.unlimited).lose.held =
        ((seats.set k (seats.getD k Seats.unlimited).gain).getD j
          Seats.unlimited).held - 1 := rfl
    rw [hjheld] at e2 hl
    omega
  · rw [hs', List.length_set, List.length_set]

/-- A corrector run that does not panic preserves the ledger total and the
ledger length. -/
theorem amc_heldSum {bal : Ballot} {votes : List Nat}
    {seats prev s' : List Seats} (hb : LawfulBallot bal)
    (h : absolute_majority_check bal votes seats prev = some s') :
    heldSum s' = heldSum seats ∧ s'.length = seats.length := by
  rcases amc_some_inv h with ⟨_, hs⟩ | ⟨k, j, rest, hk, hbp, hs'⟩
  · rw [hs]; exact ⟨rfl, rfl⟩
  · obtain ⟨hkv, hks, _, _⟩ := amcFind_some_char hk
    obtain ⟨_, _, _, _, _, h6, h7⟩ := amc_fire_effect hb hks hbp hs'
    exact ⟨h6, h7⟩

/-! ### The allocation loop -/

theorem go_eq_zero {Q : Type} [LinearOrder Q] (bal : Ballot)
    (crit : Nat → Seats → Option Q) (votes : List Nat)
    (seats : List Seats) (pool : Nat) (lastW : List Seats) :
    allocate_seats_go bal crit votes 0 seats pool lastW =
      if pool = 0 then
        some (match absolute_majority_check bal votes seats lastW with
          | none => AllocRes.amcPanic
          | some s => AllocRes.ok s 0 false)
      else none := rfl

theorem go_eq_succ {Q : Type} [LinearOrder Q] (bal : Ballot)
    (crit : Nat → Seats → Option Q) (votes : List Nat) (fuel : Nat)
    (seats : List Seats) (pool : Nat) (lastW : List Seats) :
    allocate_seats_go bal crit votes (fuel + 1) seats pool lastW =
      if pool = 0 then
        some (match absolute_majority_check bal votes seats lastW with
          | none => AllocRes.amcPanic
          | some s => AllocRes.ok s 0 false)
      else
        match allocate_single_step bal crit votes seats pool with
        | .panic => some .stepPanic
        | .exhausted => some (.ok seats pool true)
        | .stepped s' p' => allocate_seats_go bal crit votes fuel s' p' seats := rfl

theorem go_ok_false_inv {Q : Type} [LinearOrder Q] {bal : Ballot}
    {crit : Nat → Seats → Option Q} {votes : List Nat} {fuel pool pF : Nat}
    {seats lastW sF : List Seats}
    (h : allocate_seats_go bal crit votes fuel seats pool lastW =
      some (.ok sF pF false)) :
    pF = 0 ∧ ∃ sL lwL, Reach bal crit votes ⟨seats, pool, lastW⟩ ⟨sL, 0, lwL⟩ ∧
      absolute_majority_check bal votes sL lwL = some sF := by
  induction fuel generalizing seats pool lastW with
  | zero =>
    rw [go_eq_zero] at h
    by_cases hp : pool = 0
    · rw [if_pos hp] at h
      subst hp
      split at h
      next hamc => simp at h
      next s hamc =>
        simp only [Option.some.injEq] at h
        cases h
        exact ⟨rfl, seats, lastW, Reach.refl _, hamc⟩
    · rw [if_neg hp] at h
      exact Option.noConfusion h
  | succ fuel ih =>
    rw [go_eq_succ] at h
    by_cases hp : pool = 0
    · rw [if_pos hp] at h
      subst hp
      split at h
      next hamc => simp at h
      next s hamc =>
        simp only [Option.some.injEq] at h
        cases h
        exact ⟨rfl, seats, lastW, Reach.refl _, hamc⟩
    · rw [if_neg hp] at h
      split at h
      next hstep => simp at h
      next hstep => simp at h
      next s' p' hstep =>
        obtain ⟨hpF, sL, lwL, hreach, hamc⟩ := ih h
        exact ⟨hpF, sL, lwL, Reach.tail (show 0 < pool by omega) hstep hreach, hamc⟩

theorem go_ok_true_inv {Q : Type} [LinearOrder Q] {bal : Ballot}
    {crit : Nat → Seats → Option Q} {votes : List Nat} {fuel pool pF : Nat}
    {seats lastW sF : List Seats}
    (h : allocate_seats_go bal crit votes fuel seats pool lastW =
      some (.ok sF pF true)) :
    0 < pF ∧ ∃ lwL, Reach bal crit votes ⟨seats, pool, lastW⟩ ⟨sF, pF, lwL⟩ ∧
      allocate_single_step bal crit votes sF pF = .exhausted := by
  induction fuel generalizing seats pool lastW with
  | zero =>
    rw [go_eq_zero] at h
    by_cases hp : pool = 0
    · rw [if_pos hp] at h
      split at h
      next hamc => simp at h
      next s hamc => simp at h
    · rw [if_neg hp] at h
      exact Option.noConfusion h
  | succ fuel ih =>
    rw [go_eq_succ] at h
    by_cases hp : pool = 0
    · rw [if_pos hp] at h
      split at h
      next hamc => simp at h
      next s hamc => simp at h
    · rw [if_neg hp] at h
      split at h
      next hstep => simp at h
      next hstep =>
        simp only [Option.some.injEq] at h
        cases h
        exact ⟨by omega, lastW, Reach.refl _, hstep⟩
      next s' p' hstep =>
        obtain ⟨hpF, lwL, hreach, hex⟩ := ih h
        exact ⟨hpF, lwL, Reach.tail (show 0 < pool by omega) hstep hreach, hex⟩

theorem go_amcPanic_inv {Q : Type} [LinearOrder Q] {bal : Ballot}
    {crit : Nat → Seats → Option Q} {votes : List Nat} {fuel pool : Nat}
    {seats lastW : List Seats}
    (h : allocate_seats_go bal crit votes fuel seats pool lastW =
      some .amcPanic) :
    ∃ sL lwL, Reach bal crit votes ⟨seats, pool, lastW⟩ ⟨sL, 0, lwL⟩ ∧
      absolute_majority_check bal votes sL lwL = none := by
  induction fuel generalizing seats pool lastW with
  | zero =>
    rw [go_eq_zero] at h
    by_cases hp : pool = 0
    · rw [if_pos hp] at h
      subst hp
      split at h
      next hamc => exact ⟨seats, lastW, Reach.refl _, hamc⟩
      next s hamc => simp at h
    · rw [if_neg hp] at h
      exact Option.noConfusion h
  | succ fuel ih =>
    rw [go_eq_succ] at h
    by_cases hp : pool = 0
    · rw [if_pos hp] at h
      subst hp
      split at h
      next hamc => exact ⟨seats, lastW, Reach.refl _, hamc⟩
      next s hamc => simp at h
    · rw [if_neg hp] at h
      split at h
      next hstep => simp at h
      next hstep => simp at h
      next s' p' hstep =>
        obtain ⟨sL, lwL, hreach, hamc⟩ := ih h
        exact ⟨sL, lwL, Reach.tail (show 0 < pool by omega) hstep hreach, hamc⟩

theorem go_total {Q : Type} [LinearOrder Q] {bal : Ballot}
    {crit : Nat → Seats → Option Q} {votes : List Nat}
    (hb : LawfulBallot bal) :
    ∀ fuel pool, pool ≤ fuel → ∀ seats lastW,
      allocate_seats_go bal crit votes fuel seats pool lastW ≠ none := by
  intro fuel
  induction fuel with
  | zero =>
    intro pool hle seats lastW
    have hp : pool = 0 := by omega
    rw [go_eq_zero, if_pos hp]
    simp
  | succ fuel ih =>
    intro pool hle seats lastW
    rw [go_eq_succ]
    by_cases hp : pool = 0
    · rw [if_pos hp]; simp
    · rw [if_neg hp]
      cases hstep : allocate_single_step bal crit votes seats pool with
      | panic => simp
      | exhausted => simp
      | stepped s' p' =>
        have hlt : p' < pool := stepped_pool_lt hb hstep (by omega)
        exact ih p' (by omega) s' seats

/-! ### Transport along the loop -/

theorem reach_conserve {Q : Type} [LinearOrder Q] {bal : Ballot}
    {crit : Nat → Seats → Option Q} {votes : List Nat}
    (hb : LawfulBallot bal) {x y : LState}
    (h : Reach bal crit votes x y) :
    heldSum y.seats + y.pool = heldSum x.seats + x.pool ∧ y.pool ≤ x.pool ∧
      y.seats.length = x.seats.length := by
  induction h with
  | refl => exact ⟨rfl, le_refl _, rfl⟩
  | tail hp hstep htail ih =>
    obtain ⟨e1, e2, e3⟩ := ih
    obtain ⟨f1, f2⟩ := stepped_heldSum hb hstep
    have f3 := stepped_length hb hstep
    simp only [] at e1 e2 e3 ⊢
    refine ⟨by omega, by omega, by rw [e3]; exact f3⟩

theorem reach_held_mono {Q : Type} [LinearOrder Q] {bal : Ballot}
    {crit : Nat → Seats → Option Q} {votes : List Nat}
    (hb : LawfulBallot bal) {x y : LState}
    (h : Reach bal crit votes x y) :
    ∀ i, (x.seats.getD i Seats.unlimited).held ≤
        (y.seats.getD i Seats.unlimited).held ∧
      (y.seats.getD i Seats.unlimited).cap =
        (x.seats.getD i Seats.unlimited).cap := by
  induction h with
  | refl => exact fun i => ⟨le_refl _, rfl⟩
  | tail hp hstep htail ih =>
    intro i
    obtain ⟨e1, e2⟩ := ih i
    obtain ⟨f1, f2⟩ := stepped_held hb hstep i
    simp only [] at e1 e2 ⊢
    exact ⟨le_trans f1 e1, by rw [e2]; exact f2⟩

theorem reach_pres {Q : Type} [LinearOrder Q] {bal : Ballot}
    {crit : Nat → Seats → Option Q} {votes : List Nat}
    (P : List Seats → Prop)
    (hstep : ∀ s p s' p', 0 < p →
      allocate_single_step bal crit votes s p = .stepped s' p' → P s → P s')
    {x y : LState} (h : Reach bal crit votes x y) (hx : P x.seats) :
    P y.seats := by
  induction h with
  | refl => exact hx
  | tail hp hs htail ih => exact ih (hstep _ _ _ _ hp hs hx)

theorem reach_last {Q : Type} [LinearOrder Q] {bal : Ballot}
    {crit : Nat → Seats → Option Q} {votes : List Nat} {x y : LState}
    (h : Reach bal crit votes x y) :
    x = y ∨ ∃ s p lw, Reach bal crit votes x ⟨s, p, lw⟩ ∧ 0 < p ∧
      allocate_single_step bal crit votes s p = .stepped y.seats y.pool ∧
      y.lastW = s := by
  induction h with
  | refl => left; rfl
  | tail hp hstep htail ih =>
    right
    rename_i x s' p' y
    rcases ih with heq | ⟨s, p, lw, hr, hp2, hstep2, hlw⟩
    · refine ⟨x.seats, x.pool, x.lastW, ?_, hp, ?_, ?_⟩
      · exact Reach.refl x
      · rw [← heq]; exact hstep
      · rw [← heq]
    · exact ⟨s, p, lw, Reach.tail hp hstep hr, hp2, hstep2, hlw⟩

/-! ### Where the corrector is invoked -/

theorem noamc_eq_zero {Q : Type} [LinearOrder Q] (bal : Ballot)
    (crit : Nat → Seats → Option Q) (votes : List Nat)
    (seats : List Seats) (pool : Nat) (lastW : List Seats) :
    allocate_seats_noamc_go bal crit votes 0 seats pool lastW =
      if pool = 0 then some (.out seats 0 false lastW) else none := rfl

theorem noamc_eq_succ {Q : Type} [LinearOrder Q] (bal : Ballot)
    (crit : Nat → Seats → Option Q) (votes : List Nat) (fuel : Nat)
    (seats : List Seats) (pool : Nat) (lastW : List Seats) :
    allocate_seats_noamc_go bal crit votes (fuel + 1) seats pool lastW =
      if pool = 0 then some (.out seats 0 false lastW)
      else
        match allocate_single_step bal crit votes seats pool with
        | .panic => some .panic
        | .exhausted => some (.out seats pool true lastW)
        | .stepped s' p' =>
          allocate_seats_noamc_go bal crit votes fuel s' p' seats := rfl

theorem go_eq_glue {Q : Type} [LinearOrder Q] (bal : Ballot)
    (crit : Nat → Seats → Option Q) (votes : List Nat) :
    ∀ (fuel : Nat) (seats : List Seats) (pool : Nat) (lastW : List Seats),
      allocate_seats_go bal crit votes fuel seats pool lastW =
        (allocate_seats_noamc_go bal crit votes fuel seats pool lastW).map
          (glueAmc bal votes) := by
  intro fuel
  induction fuel with
  | zero =>
    intro seats pool lastW
    rw [go_eq_zero, noamc_eq_zero]
    by_cases hp : pool = 0
    · rw [if_pos hp, if_pos hp]
      simp only [Option.map_some']
      rfl
    · rw [if_neg hp, if_neg hp]
      rfl
  | succ fuel ih =>
    intro seats pool lastW
    rw [go_eq_succ, noamc_eq_succ]
    by_cases hp : pool = 0
    · rw [if_pos hp, if_pos hp]
      simp only [Option.map_some']
      rfl
    · rw [if_neg hp, if_neg hp]
      cases hstep : allocate_single_step bal crit votes seats pool with
      | panic => rfl
      | exhausted => rfl
      | stepped s' p' => exact ih s' p' seats

/-! ### Claim C1 -/

/-- C1, counterexample: the claim says the Majority Corrector is invoked
after the loop ends both when the pool is drained and when a round reports
exhausted.  On the concrete input below (largest-surplus entry point, one
pool seat, ledgers already holding one seat each) every round is exhausted;
the code returns the ledgers untouched with the pool undrained, while the
loop as the claim describes it would invoke the corrector, which fires and
hits the donor-lottery panic.  The two disagree, refuting the claim. -/
theorem C1_counterexample :
    allocate_per_surplus takeBallot 1 [6, 4]
        [⟨1, none⟩, ⟨1, none⟩] =
      some (.ok [⟨1, none⟩, ⟨1, none⟩] 1 true) ∧
    allocate_per_surplus_specC1 takeBallot 1 [6, 4]
        [⟨1, none⟩, ⟨1, none⟩] = some .amcPanic := by
  constructor <;> decide

/-- C1 (amended): the Allocation Loop invokes the Majority Corrector
exactly when it ends with the pool drained to zero, passing the final
ledgers and the snapshot taken immediately before the final round (the
initial ledgers if no round ran); when a round reports exhausted, the loop
returns without invoking the corrector.  This is stated as a factorisation
of the loop through the corrector-free loop (which records the final
snapshot) followed by glueAmc, which applies the corrector on the drained
exit only. -/
theorem C1_amended_theorem {Q : Type} [LinearOrder Q] (bal : Ballot)
    (crit : Nat → Seats → Option Q) (votes : List Nat) (seats : List Seats)
    (pool : Nat) :
    allocate_seats bal crit votes seats pool =
      (allocate_seats_noamc_go bal crit votes pool seats pool seats).map
        (glueAmc bal votes) :=
  go_eq_glue bal crit votes pool seats pool seats

/-! ### Claim C4 -/

/-- C4, counterexample: with empty vote and ledger arrays (no party has a
present quality) and a non-empty pool, the claim says the round reports
exhausted; the code instead panics on the maximum of the empty quality
vector. -/
theorem C4_counterexample :
    allocate_single_step takeBallot avgCrit [] [] 1 = .panic ∧
      StepRes.panic ≠ StepRes.exhausted := by
  exact ⟨rfl, by decide⟩

/-- C4 (amended): for a round over at least one party (non-empty votes and
ledgers): if no capacity-eligible party has a present quality the step
reports exhausted (moving no seats); otherwise the step completes and
transfers exactly min(pool, number of parties tied at the maximal quality)
seats, one each to distinct parties whose quality equals the maximum,
parties without capacity being absent from the tied set. -/
theorem C4_amended_theorem {Q : Type} [LinearOrder Q] (bal : Ballot)
    (crit : Nat → Seats → Option Q) (votes : List Nat) (seats : List Seats)
    (pool : Nat) (hb : LawfulBallot bal) (hv : votes ≠ []) (hs : seats ≠ []) :
    ((∀ i, i < votes.length → i < seats.length →
        (seats.getD i Seats.unlimited).has_candidates = true →
        crit (votes.getD i 0) (seats.getD i Seats.unlimited) = none) →
      allocate_single_step bal crit votes seats pool = .exhausted) ∧
    ((∃ i, i < votes.length ∧ i < seats.length ∧
        (seats.getD i Seats.unlimited).has_candidates = true ∧
        crit (votes.getD i 0) (seats.getD i Seats.unlimited) ≠ none) →
      ∃ s' p' m sel,
        allocate_single_step bal crit votes seats pool = .stepped s' p' ∧
        rustMax (qualities crit votes seats) = some (some m) ∧
        sel = bal (awardedIdx (qualities crit votes seats) m) pool ∧
        sel.length = min pool (awardedIdx (qualities crit votes seats) m).length ∧
        sel.Nodup ∧
        (∀ j ∈ sel, j ∈ awardedIdx (qualities crit votes seats) m) ∧
        (∀ j ∈ awardedIdx (qualities crit votes seats) m,
          (seats.getD j Seats.unlimited).has_candidates = true ∧
          crit (votes.getD j 0) (seats.getD j Seats.unlimited) = some m) ∧
        p' = pool - sel.length ∧
        heldSum s' = heldSum seats + sel.length ∧
        (∀ i2, i2 < seats.length →
          (s'.getD i2 Seats.unlimited).held =
            (seats.getD i2 Seats.unlimited).held +
              (if i2 ∈ sel then 1 else 0))) := by
  constructor
  · intro hall
    rw [step_char]
    have hqne : qualities crit votes seats ≠ [] := by
      intro hnil
      rcases (qualities_eq_nil_iff crit votes seats).mp hnil with h | h
      · exact hv h
      · exact hs h
    have hnone : ∀ q ∈ qualities crit votes seats, q = none := by
      intro q hq
      obtain ⟨i, hi, hval⟩ := List.mem_iff_getElem.mp hq
      rw [length_qualities] at hi
      have hiv : i < votes.length := by omega
      have his : i < seats.length := by omega
      have : (qualities crit votes seats).getD i none = q := by
        rw [getD_eq_getElem _ _ (by rw [length_qualities]; omega), hval]
      rw [qualities_getD crit votes seats hiv his] at this
      by_cases hc : (seats.getD i Seats.unlimited).has_candidates
      · rw [if_pos hc, hall i hiv his hc] at this; exact this.symm
      · rw [if_neg hc] at this; exact this.symm
    rw [rustMax_all_none hqne hnone]
  · rintro ⟨i, hiv, his, hci, hcne⟩
    obtain ⟨q, hq⟩ : ∃ q, crit (votes.getD i 0)
        (seats.getD i Seats.unlimited) = some q := by
      cases hcq : crit (votes.getD i 0) (seats.getD i Seats.unlimited) with
      | none => exact absurd hcq hcne
      | some q => exact ⟨q, rfl⟩
    have hlenq : i < (qualities crit votes seats).length := by
      rw [length_qualities]; omega
    have hqi : (qualities crit votes seats).getD i none = some q := by
      rw [qualities_getD crit votes seats hiv his, if_pos hci, hq]
    have hmem : some q ∈ qualities crit votes seats := by
      rw [← hqi, getD_eq_getElem _ _ hlenq]
      exact List.getElem_mem hlenq
    cases hm : rustMax (qualities crit votes seats) with
    | none =>
      exfalso
      rw [rustMax_eq_none_iff] at hm
      rw [hm] at hmem
      exact absurd hmem (List.not_mem_nil _)
    | some om =>
      cases om with
      | none =>
        exfalso
        have := rustMax_none_all hm _ hmem
        exact Option.noConfusion this
      | some m =>
        have hnd : (bal (awardedIdx (qualities crit votes seats) m)
            pool).Nodup := (hb.sublist _ _).nodup (nodup_awardedIdx _ _)
        have hsub : ∀ j ∈ bal (awardedIdx (qualities crit votes seats) m)
            pool, j ∈ awardedIdx (qualities crit votes seats) m :=
          fun j hj => (hb.sublist _ _).subset hj
        have hstep : allocate_single_step bal crit votes seats pool =
            .stepped
              (award (bal (awardedIdx (qualities crit votes seats) m) pool)
                seats)
              (pool -
                (bal (awardedIdx (qualities crit votes seats) m)
                  pool).length) := by
          rw [step_char, hm]
        refine ⟨_, _, m, bal (awardedIdx (qualities crit votes seats) m) pool,
          hstep, rfl, rfl, hb.len _ _, hnd, hsub, ?_, rfl, ?_, ?_⟩
        · intro j hj
          obtain ⟨_, _, hc, hcrit⟩ := awarded_quality hj
          exact ⟨hc, hcrit⟩
        · exact heldSum_award hnd (sel_lt_length hsub)
        · intro i2 hi2
          rw [award_getD _ seats hi2]
          split <;> simp [Seats.gain]

/-- C4 witness: both branches of the amended theorem at concrete inputs.
A largest-surplus phase-one round on votes 6 and 4 with one seat reports
exhausted (no party clears three quarters of a quota); a highest-averages
round on the same input has party 0 capacity-eligible with a present
quality, so it completes and transfers min(1, tied) seats as
characterised. -/
theorem C4_witness :
    (allocate_single_step takeBallot (surplusCrit1 10 1) [6, 4]
      [Seats.unlimited, Seats.unlimited] 1 = .exhausted) ∧
    (∃ s' p' m sel,
      allocate_single_step takeBallot avgCrit [6, 4]
        [Seats.unlimited, Seats.unlimited] 1 = .stepped s' p' ∧
      rustMax (qualities avgCrit [6, 4]
        [Seats.unlimited, Seats.unlimited]) = some (some m) ∧
      sel = takeBallot (awardedIdx (qualities avgCrit [6, 4]
        [Seats.unlimited, Seats.unlimited]) m) 1 ∧
      sel.length = min 1 (awardedIdx (qualities avgCrit [6, 4]
        [Seats.unlimited, Seats.unlimited]) m).length ∧
      sel.Nodup ∧
      (∀ j ∈ sel, j ∈ awardedIdx (qualities avgCrit [6, 4]
        [Seats.unlimited, Seats.unlimited]) m) ∧
      (∀ j ∈ awardedIdx (qualities avgCrit [6, 4]
          [Seats.unlimited, Seats.unlimited]) m,
        (([Seats.unlimited, Seats.unlimited].getD j
            Seats.unlimited)).has_candidates = true ∧
        avgCrit ([6, 4].getD j 0)
          ([Seats.unlimited, Seats.unlimited].getD j Seats.unlimited) =
            some m) ∧
      p' = 1 - sel.length ∧
      heldSum s' = heldSum [Seats.unlimited, Seats.unlimited] + sel.length ∧
      (∀ i2, i2 < ([Seats.unlimited,
          Seats.unlimited] : List Seats).length →
        (s'.getD i2 Seats.unlimited).held =
          (([Seats.unlimited, Seats.unlimited].getD i2
            Seats.unlimited)).held + (if i2 ∈ sel then 1 else 0))) :=
  ⟨(C4_amended_theorem takeBallot (surplusCrit1 10 1) [6, 4]
      [Seats.unlimited, Seats.unlimited] 1 takeBallot_lawful
      (by decide) (by decide)).1
    (by
      intro i hi _ _
      have hi2 : i < 2 := by simpa using hi
      interval_cases i <;> decide),
  (C4_amended_theorem takeBallot avgCrit [6, 4]
      [Seats.unlimited, Seats.unlimited] 1 takeBallot_lawful
      (by decide) (by decide)).2
    ⟨0, by decide, by decide, by decide, by decide⟩⟩

/-! ### Claim C10 -/

/-- C10: with a non-empty votes array and ledgers of equal length the
unwrap of the round maximum cannot fail and the step returns without
panicking; with empty votes and ledgers and a non-empty pool it panics. -/
theorem C10_theorem {Q : Type} [LinearOrder Q] (bal : Ballot)
    (crit : Nat → Seats → Option Q) (votes : List Nat) (seats : List Seats)
    (pool : Nat) :
    (votes.length = seats.length → votes ≠ [] →
      allocate_single_step bal crit votes seats pool ≠ .panic) ∧
    (votes = [] → seats = [] → 0 < pool →
      allocate_single_step bal crit votes seats pool = .panic) := by
  constructor
  · intro hlen hne hpanic
    rcases (step_panic_iff bal crit votes seats pool).mp hpanic with h | h
    · exact hne h
    · apply hne
      have : votes.length = 0 := by rw [hlen, h]; rfl
      exact List.length_eq_zero.mp this
  · intro hv hs _
    subst hv
    subst hs
    exact (step_panic_iff bal crit [] [] pool).mpr (Or.inl rfl)

/-- C10 witness: both parts of the theorem at concrete inputs. -/
theorem C10_witness :
    (allocate_single_step takeBallot avgCrit [5] [Seats.unlimited] 1 ≠
      .panic) ∧
    allocate_single_step takeBallot avgCrit [] [] 1 = .panic :=
  ⟨(C10_theorem takeBallot avgCrit [5] [Seats.unlimited] 1).1 rfl
      (by decide),
    (C10_theorem takeBallot avgCrit [] [] 1).2 rfl rfl (by decide)⟩

/-! ### Conservation through the entry points -/

theorem allocate_seats_ok_facts {Q : Type} [LinearOrder Q] {bal : Ballot}
    {crit : Nat → Seats → Option Q} {votes : List Nat}
    {seats s : List Seats} {pool p : Nat} {e : Bool}
    (hb : LawfulBallot bal)
    (h : allocate_seats bal crit votes seats pool = some (.ok s p e)) :
    heldSum s + p = heldSum seats + pool ∧ p ≤ pool ∧ (e = false → p = 0) ∧
      s.length = seats.length := by
  cases e with
  | true =>
    obtain ⟨hp, lwL, hreach, hex⟩ := go_ok_true_inv h
    obtain ⟨e1, e2, e3⟩ := reach_conserve hb hreach
    exact ⟨e1, e2, by simp, e3⟩
  | false =>
    obtain ⟨hp, sL, lwL, hreach, hamc⟩ := go_ok_false_inv h
    obtain ⟨e1, e2, e3⟩ := reach_conserve hb hreach
    obtain ⟨f1, f2⟩ := amc_heldSum hb hamc
    subst hp
    simp only [] at e1 e2 e3
    refine ⟨by omega, by omega, fun _ => rfl, by rw [f2]; exact e3⟩

theorem per_surplus_inv {bal : Ballot} {total p : Nat} {e : Bool}
    {votes : List Nat} {seats s : List Seats}
    (h : allocate_per_surplus bal total votes seats = some (.ok s p e)) :
    ∃ s1 p1 e1,
      allocate_seats bal (surplusCrit1 votes.sum total) votes seats total =
        some (.ok s1 p1 e1) ∧
      ((0 < p1 ∧ allocate_seats bal (surplusCrit2 votes.sum total) votes s1 p1 =
          some (.ok s p e)) ∨
        (p1 = 0 ∧ s = s1 ∧ p = p1 ∧ e = e1)) := by
  unfold allocate_per_surplus at h
  split at h
  next s1 p1 e1 hph =>
    by_cases hp1 : 0 < p1
    · rw [if_pos hp1] at h
      exact ⟨s1, p1, e1, hph, Or.inl ⟨hp1, h⟩⟩
    · rw [if_neg hp1] at h
      simp only [Option.some.injEq, AllocRes.ok.injEq] at h
      obtain ⟨h1, h2, h3⟩ := h
      exact ⟨s1, p1, e1, hph, Or.inr ⟨by omega, h1.symm, h2.symm, h3.symm⟩⟩
  next r hno =>
    exact (hno s p e h).elim

theorem per_surplus_ok_facts {bal : Ballot} {total p : Nat} {e : Bool}
    {votes : List Nat} {seats s : List Seats} (hb : LawfulBallot bal)
    (h : allocate_per_surplus bal total votes seats = some (.ok s p e)) :
    heldSum s + p = heldSum seats + total ∧ p ≤ total ∧ (e = false → p = 0) ∧
      s.length = seats.length := by
  obtain ⟨s1, p1, e1, hph1, hrest⟩ := per_surplus_inv h
  obtain ⟨a1, a2, a3, a4⟩ := allocate_seats_ok_facts hb hph1
  rcases hrest with ⟨hp1, hph2⟩ | ⟨hp1, hs, hp, he⟩
  · obtain ⟨b1, b2, b3, b4⟩ := allocate_seats_ok_facts hb hph2
    exact ⟨by omega, by omega, b3, by rw [b4]; exact a4⟩
  · subst hs; subst hp; subst he
    exact ⟨by omega, by omega, by intro hef; omega, a4⟩

/-- Conservation facts for each of the four entry points. -/
theorem entry_ok_facts {bal : Ballot} {total p : Nat} {e : Bool}
    {votes : List Nat} {seats s : List Seats} (hb : LawfulBallot bal)
    (hrun : allocate bal total votes seats = some (.ok s p e) ∨
      allocate_national bal total votes seats = some (.ok s p e) ∨
      allocate_per_average bal total votes seats = some (.ok s p e) ∨
      allocate_per_surplus bal total votes seats = some (.ok s p e)) :
    heldSum s + p = heldSum seats + total ∧ p ≤ total ∧ (e = false → p = 0) ∧
      s.length = seats.length := by
  rcases hrun with h | h | h | h
  · unfold allocate at h
    split at h
    · exact allocate_seats_ok_facts hb h
    · exact per_surplus_ok_facts hb h
  · exact allocate_seats_ok_facts hb h
  · exact allocate_seats_ok_facts hb h
  · exact per_surplus_ok_facts hb h

/-! ### Claim C5 -/

/-- C5: for every entry point run that returns, the increase of the summed
held counts equals the number of seats drained from the pool, which is at
most total_seats, and the pool is fully drained unless the run ended with
an exhausted round. -/
theorem C5_theorem {bal : Ballot} {total p : Nat} {e : Bool}
    {votes : List Nat} {seats s : List Seats} (hb : LawfulBallot bal)
    (hrun : allocate bal total votes seats = some (.ok s p e) ∨
      allocate_national bal total votes seats = some (.ok s p e) ∨
      allocate_per_average bal total votes seats = some (.ok s p e) ∨
      allocate_per_surplus bal total votes seats = some (.ok s p e)) :
    heldSum s = heldSum seats + (total - p) ∧ total - p ≤ total ∧
      (e = false → heldSum s = heldSum seats + total) := by
  obtain ⟨h1, h2, h3, _⟩ := entry_ok_facts hb hrun
  refine ⟨by omega, by omega, fun hef => ?_⟩
  have := h3 hef
  omega

/-- C5 witness: the largest-surplus corner case (votes 33 and 7, capacities
2 and 13, four seats) ends exhausted with one seat unawarded; conservation
holds with three seats awarded. -/
theorem C5_witness :
    heldSum [(⟨2, some 2⟩ : Seats), ⟨1, some 13⟩] =
        heldSum [Seats.limited 2, Seats.limited 13] + (4 - 1) ∧
      4 - 1 ≤ 4 ∧
      (true = false →
        heldSum [(⟨2, some 2⟩ : Seats), ⟨1, some 13⟩] =
          heldSum [Seats.limited 2, Seats.limited 13] + 4) :=
  @C5_theorem takeBallot 4 1 true [33, 7] [Seats.limited 2, Seats.limited 13]
    [⟨2, some 2⟩, ⟨1, some 13⟩] takeBallot_lawful (Or.inl (by decide))

/-! ### Claim C3 -/

/-- C3, counterexample: at the input below the corrector fires for party 0
(winner held count becomes 3).  Party 1 also gained a seat in the final
round, so the claim's donor set (gainers except the winner) is the parties
1 and 2; the code however excludes every party whose held count equals the
winner's post-correction held count, so the lottery is run over party 2
alone.  The sets differ, refuting the claim. -/
theorem C3_counterexample :
    donorPool [(⟨3, none⟩ : Seats), ⟨3, none⟩, ⟨1, none⟩]
        [(⟨2, none⟩ : Seats), ⟨2, none⟩, ⟨0, none⟩] 3 = [2] ∧
      claimDonorSetC3 [(⟨3, none⟩ : Seats), ⟨3, none⟩, ⟨1, none⟩]
        [(⟨2, none⟩ : Seats), ⟨2, none⟩, ⟨0, none⟩] 0 = [1, 2] ∧
      amcFindIdx [3, 1, 1] [(⟨2, none⟩ : Seats), ⟨3, none⟩, ⟨1, none⟩]
        5 6 = some 0 ∧
      absolute_majority_check takeBallot [3, 1, 1]
        [(⟨2, none⟩ : Seats), ⟨3, none⟩, ⟨1, none⟩]
        [(⟨2, none⟩ : Seats), ⟨2, none⟩, ⟨0, none⟩] =
        some [⟨3, none⟩, ⟨3, none⟩, ⟨0, none⟩] ∧
      ([2] : List Nat) ≠ [1, 2] := by
  decide

/-- C3 (amended): whenever the Majority Corrector performs a correction,
the donor is selected by a one-element lottery over exactly the set of
parties whose held count in the final ledger strictly exceeds their
snapshot value and whose held count differs from the winner's
post-correction held count (so in particular the winner is excluded); the
donor loses one seat, the winner gains one seat, and the total of held
counts is unchanged. -/
theorem C3_amended_theorem {bal : Ballot} {votes : List Nat}
    {seats prev s' : List Seats} {k : Nat} (hb : LawfulBallot bal)
    (hfind : amcFindIdx votes seats votes.sum (heldSum seats) = some k)
    (hamc : absolute_majority_check bal votes seats prev = some s') :
    ∃ j rest,
      bal (donorPool (seats.set k (seats.getD k Seats.unlimited).gain) prev
        ((seats.getD k Seats.unlimited).held + 1)) 1 = j :: rest ∧
      (∀ i, i ∈ donorPool (seats.set k (seats.getD k Seats.unlimited).gain)
          prev ((seats.getD k Seats.unlimited).held + 1) ↔
        i < seats.length ∧ i < prev.length ∧
        (prev.getD i Seats.unlimited).held <
          ((seats.set k (seats.getD k Seats.unlimited).gain).getD i
            Seats.unlimited).held ∧
        ((seats.set k (seats.getD k Seats.unlimited).gain).getD i
          Seats.unlimited).held ≠ (seats.getD k Seats.unlimited).held + 1) ∧
      j ∈ donorPool (seats.set k (seats.getD k Seats.unlimited).gain) prev
        ((seats.getD k Seats.unlimited).held + 1) ∧
      j ≠ k ∧
      (s'.getD k Seats.unlimited).held =
        (seats.getD k Seats.unlimited).held + 1 ∧
      (s'.getD j Seats.unlimited).held + 1 =
        (seats.getD j Seats.unlimited).held ∧
      (∀ i, i ≠ k → i ≠ j →
        s'.getD i Seats.unlimited = seats.getD i Seats.unlimited) ∧
      heldSum s' = heldSum seats := by
  obtain ⟨hkv, hks, hcond, hfirst⟩ := amcFind_some_char hfind
  rcases amc_some_inv hamc with ⟨hnone, _⟩ | ⟨k', j, rest, hk', hbp, hs'⟩
  · rw [hfind] at hnone; exact Option.noConfusion hnone
  · rw [hfind] at hk'
    have hkk : k' = k := by
      simpa using hk'.symm
    subst hkk
    have hw : ((seats.set k' (seats.getD k' Seats.unlimited).gain).getD k'
        Seats.unlimited).held = (seats.getD k' Seats.unlimited).held + 1 := by
      rw [getD_set_self seats hks]; rfl
    rw [hw] at hbp
    obtain ⟨hjk, hjmem, hk1, hj1, hother, hsum, hlen⟩ :=
      amc_fire_effect hb hks (by rw [hw]; exact hbp) hs'
    refine ⟨j, rest, hbp, ?_, hjmem, hjk, hk1, hj1, hother, hsum⟩
    intro i
    rw [mem_donorPool, List.length_set]

/-- C3 witness: the amended theorem at the concrete firing input; the code
draws the donor from party 2 alone, party 2 loses its seat, party 0 gains
one, and the ledger total stays 6. -/
theorem C3_witness :
    ∃ j rest,
      takeBallot (donorPool
        ([(⟨2, none⟩ : Seats), ⟨3, none⟩, ⟨1, none⟩].set 0
          (([(⟨2, none⟩ : Seats), ⟨3, none⟩, ⟨1, none⟩].getD 0
            Seats.unlimited).gain))
        [(⟨2, none⟩ : Seats), ⟨2, none⟩, ⟨0, none⟩]
        (([(⟨2, none⟩ : Seats), ⟨3, none⟩, ⟨1, none⟩].getD 0
          Seats.unlimited).held + 1)) 1 = j :: rest ∧
      (∀ i, i ∈ donorPool
          ([(⟨2, none⟩ : Seats), ⟨3, none⟩, ⟨1, none⟩].set 0
            (([(⟨2, none⟩ : Seats), ⟨3, none⟩, ⟨1, none⟩].getD 0
              Seats.unlimited).gain))
          [(⟨2, none⟩ : Seats), ⟨2, none⟩, ⟨0, none⟩]
          (([(⟨2, none⟩ : Seats), ⟨3, none⟩, ⟨1, none⟩].getD 0
            Seats.unlimited).held + 1) ↔
        i < [(⟨2, none⟩ : Seats), ⟨3, none⟩, ⟨1, none⟩].length ∧
        i < [(⟨2, none⟩ : Seats), ⟨2, none⟩, ⟨0, none⟩].length ∧
        ([(⟨2, none⟩ : Seats), ⟨2, none⟩, ⟨0, none⟩].getD i
          Seats.unlimited).held <
          (([(⟨2, none⟩ : Seats), ⟨3, none⟩, ⟨1, none⟩].set 0
            (([(⟨2, none⟩ : Seats), ⟨3, none⟩, ⟨1, none⟩].getD 0
              Seats.unlimited).gain)).getD i Seats.unlimited).held ∧
        (([(⟨2, none⟩ : Seats), ⟨3, none⟩, ⟨1, none⟩].set 0
          (([(⟨2, none⟩ : Seats), ⟨3, none⟩, ⟨1, none⟩].getD 0
            Seats.unlimited).gain)).getD i Seats.unlimited).held ≠
          ([(⟨2, none⟩ : Seats), ⟨3, none⟩, ⟨1, none⟩].getD 0
            Seats.unlimited).held + 1) ∧
      j ∈ donorPool
        ([(⟨2, none⟩ : Seats), ⟨3, none⟩, ⟨1, none⟩].set 0
          (([(⟨2, none⟩ : Seats), ⟨3, none⟩, ⟨1, none⟩].getD 0
            Seats.unlimited).gain))
        [(⟨2, none⟩ : Seats), ⟨2, none⟩, ⟨0, none⟩]
        (([(⟨2, none⟩ : Seats), ⟨3, none⟩, ⟨1, none⟩].getD 0
          Seats.unlimited).held + 1) ∧
      j ≠ 0 ∧
      (([(⟨3, none⟩ : Seats), ⟨3, none⟩, ⟨0, none⟩]).getD 0
        Seats.unlimited).held =
        ([(⟨2, none⟩ : Seats), ⟨3, none⟩, ⟨1, none⟩].getD 0
          Seats.unlimited).held + 1 ∧
      (([(⟨3, none⟩ : Seats), ⟨3, none⟩, ⟨0, none⟩]).getD j
        Seats.unlimited).held + 1 =
        ([(⟨2, none⟩ : Seats), ⟨3, none⟩, ⟨1, none⟩].getD j
          Seats.unlimited).held ∧
      (∀ i, i ≠ 0 → i ≠ j →
        ([(⟨3, none⟩ : Seats), ⟨3, none⟩, ⟨0, none⟩]).getD i Seats.unlimited =
          [(⟨2, none⟩ : Seats), ⟨3, none⟩, ⟨1, none⟩].getD i
            Seats.unlimited) ∧
      heldSum [(⟨3, none⟩ : Seats), ⟨3, none⟩, ⟨0, none⟩] =
        heldSum [(⟨2, none⟩ : Seats), ⟨3, none⟩, ⟨1, none⟩] :=
  @C3_amended_theorem takeBallot [3, 1, 1]
    [⟨2, none⟩, ⟨3, none⟩, ⟨1, none⟩] [⟨2, none⟩, ⟨2, none⟩, ⟨0, none⟩]
    [⟨3, none⟩, ⟨3, none⟩, ⟨0, none⟩] 0 takeBallot_lawful (by decide)
    (by decide)

/-! ### Claim C9 -/

theorem has_surplus_zero (V S v : Nat) : has_surplus V S v 0 := by
  unfold has_surplus
  rw [Nat.zero_mul, frac_zero_num]
  exact frac_nonneg v 1

/-- Any step preserves the property that candidates clearing three
quarters of a quota hold at least one seat. -/
theorem min_held_step_pres {Q : Type} [LinearOrder Q] {bal : Ballot}
    {crit : Nat → Seats → Option Q} {votes : List Nat} {V S : Nat}
    (hb : LawfulBallot bal) :
    ∀ (s : List Seats) (p : Nat) (s' : List Seats) (p' : Nat), 0 < p →
      allocate_single_step bal crit votes s p = .stepped s' p' →
      (∀ i, i < votes.length → i < s.length →
        (s.getD i Seats.unlimited).has_candidates = true →
        quota34 V S (votes.getD i 0) →
        1 ≤ (s.getD i Seats.unlimited).held) →
      (∀ i, i < votes.length → i < s'.length →
        (s'.getD i Seats.unlimited).has_candidates = true →
        quota34 V S (votes.getD i 0) →
        1 ≤ (s'.getD i Seats.unlimited).held) := by
  intro s p s' p' hp hstep hP i hiv his' hc' hq
  have hlen : s'.length = s.length := stepped_length hb hstep
  have his : i < s.length := by omega
  obtain ⟨hheld, hcap⟩ := stepped_held hb hstep i
  have hc : (s.getD i Seats.unlimited).has_candidates = true :=
    cand_antitone hheld hcap hc'
  have := hP i hiv his hc hq
  omega

/-- C9: in the second (highest-averages) phase of allocate_per_surplus,
whenever a party's quality closure is evaluated (the party still has
candidates) and the party clears the three-quarters-of-a-quota test, it
holds at least one seat, so the subtraction held - 1 in the adjusted
surplus test cannot underflow.  The phase-two evaluation states are
exactly the states reachable from the phase-one exhausted state. -/
theorem C9_theorem {bal : Ballot} {total p1 : Nat} {votes : List Nat}
    {seats s1 : List Seats} (hb : LawfulBallot bal)
    (h1 : allocate_seats bal (surplusCrit1 votes.sum total) votes seats
      total = some (.ok s1 p1 true))
    {σ : LState}
    (hreach : Reach bal (surplusCrit2 votes.sum total) votes ⟨s1, p1, s1⟩ σ) :
    ∀ i, i < votes.length → i < σ.seats.length →
      (σ.seats.getD i Seats.unlimited).has_candidates = true →
      quota34 votes.sum total (votes.getD i 0) →
      1 ≤ (σ.seats.getD i Seats.unlimited).held := by
  obtain ⟨hp1, lwL, hreach1, hex⟩ := go_ok_true_inv h1
  have hbase : ∀ i, i < votes.length → i < s1.length →
      (s1.getD i Seats.unlimited).has_candidates = true →
      quota34 votes.sum total (votes.getD i 0) →
      1 ≤ (s1.getD i Seats.unlimited).held := by
    intro i hiv his hc hq
    have hcrit := step_exhausted_crit_none hex hiv his hc
    unfold surplusCrit1 at hcrit
    by_cases hhs : has_surplus votes.sum total (votes.getD i 0)
        (s1.getD i Seats.unlimited).count ∧
        quota34 votes.sum total (votes.getD i 0)
    · rw [if_pos hhs] at hcrit; exact Option.noConfusion hcrit
    · by_contra hlt
      have hz : (s1.getD i Seats.unlimited).count = 0 := by
        unfold Seats.count; omega
      apply hhs
      refine ⟨?_, hq⟩
      rw [hz]
      exact has_surplus_zero _ _ _
  exact reach_pres _ (min_held_step_pres hb) hreach hbase

/-- C9 witness: with votes 7, 6, 5 and two seats, phase one ends exhausted
after giving party 0 one seat; party 0 still has candidates and clears
three quarters of a quota at the start of phase two, and indeed holds one
seat. -/
theorem C9_witness :
    1 ≤ (((⟨[(⟨1, none⟩ : Seats), ⟨0, none⟩, ⟨0, none⟩], 1,
        [(⟨1, none⟩ : Seats), ⟨0, none⟩, ⟨0, none⟩]⟩ : LState)).seats.getD 0
        Seats.unlimited).held :=
  @C9_theorem takeBallot 2 1 [7, 6, 5]
    [Seats.unlimited, Seats.unlimited, Seats.unlimited]
    [⟨1, none⟩, ⟨0, none⟩, ⟨0, none⟩] takeBallot_lawful (by decide)
    ⟨[(⟨1, none⟩ : Seats), ⟨0, none⟩, ⟨0, none⟩], 1,
      [(⟨1, none⟩ : Seats), ⟨0, none⟩, ⟨0, none⟩]⟩
    (Reach.refl _) 0 (by decide) (by decide) (by decide) (by decide)

/-! ### Further transport lemmas -/

theorem frac_lt_frac_iff (a c : Nat) {b d : Nat} (hb : 0 < b) (hd : 0 < d) :
    frac a b < frac c d ↔ a * d < c * b := by
  rw [lt_iff_not_le, frac_le_frac_iff c a hd hb]
  omega

theorem frac_zero_den (a : Nat) : frac a 0 = 0 := by
  rw [frac_eq_div]
  simp

/-- A party whose criterion is always absent never changes its held
count along the loop. -/
theorem reach_held_const {Q : Type} [LinearOrder Q] {bal : Ballot}
    {crit : Nat → Seats → Option Q} {votes : List Nat}
    (hb : LawfulBallot bal) {i : Nat}
    (habs : ∀ s0 : Seats, crit (votes.getD i 0) s0 = none)
    {x y : LState} (hreach : Reach bal crit votes x y) :
    (y.seats.getD i Seats.unlimited).held =
      (x.seats.getD i Seats.unlimited).held := by
  induction hreach with
  | refl => rfl
  | tail hp hstep htail ih =>
    rw [ih]
    rename_i x' s' p' y'
    obtain ⟨m, sel, hm, hbal, hnd, hsel, hs', hpe, hlen⟩ :=
      stepped_skeleton hb hstep
    simp only []
    by_cases hil : i < x'.seats.length
    · rw [hs', award_getD sel x'.seats hil]
      have hnotsel : i ∉ sel := by
        intro hisel
        obtain ⟨_, _, _, hcrit⟩ := awarded_quality (hsel i hisel)
        rw [habs] at hcrit
        exact Option.noConfusion hcrit
      rw [if_neg hnotsel]
    · have h1 : x'.seats.length ≤ i := by omega
      have h2 : s'.length ≤ i := by
        rw [hs', length_award]; omega
      rw [List.getD_eq_default _ _ h1, List.getD_eq_default _ _ h2]

/-- Along the loop, every party that has gained a seat satisfies any
property implied by a present criterion value. -/
theorem reach_gainers_E {Q : Type} [LinearOrder Q] {bal : Ballot}
    {crit : Nat → Seats → Option Q} {votes : List Nat}
    (hb : LawfulBallot bal) (E : Nat → Prop)
    (hcrit : ∀ v s0 q, crit v s0 = some q → E v)
    {x y : LState} (hreach : Reach bal crit votes x y) :
    ∀ j, (x.seats.getD j Seats.unlimited).held <
      (y.seats.getD j Seats.unlimited).held → E (votes.getD j 0) := by
  induction hreach with
  | refl => intro j hj; omega
  | tail hp hstep htail ih =>
    rename_i x' s' p' y'
    intro j hj
    obtain ⟨m, sel, hm, hbal, hnd, hsel, hs', hpe, hlen⟩ :=
      stepped_skeleton hb hstep
    by_cases hmid : ((⟨s', p', x'.seats⟩ : LState).seats.getD j
        Seats.unlimited).held < (y'.seats.getD j Seats.unlimited).held
    · exact ih j hmid
    · have hjl : j < x'.seats.length := by
        by_contra hge
        have h1 : x'.seats.length ≤ j := by omega
        have h2 : s'.length ≤ j := by rw [hs', length_award]; omega
        simp only [] at hmid hj
        rw [List.getD_eq_default _ _ h2] at hmid
        rw [List.getD_eq_default _ _ h1] at hj
        omega
      have hjs : j ∈ sel := by
        by_contra hnot
        simp only [] at hmid hj
        rw [hs', award_getD sel x'.seats hjl, if_neg hnot] at hmid
        omega
      obtain ⟨_, _, _, hcrit'⟩ := awarded_quality (hsel j hjs)
      exact hcrit _ _ _ hcrit'

/-! ### Claim C6 -/

/-- C6: under allocate_national, a party whose votes are strictly below
one full quota (exact rational comparison of votes with
total_votes/total_seats) has an absent quality against every ledger state,
and its held count is unchanged by the whole call: it receives zero
seats. -/
theorem C6_theorem {bal : Ballot} {total p : Nat} {e : Bool}
    {votes : List Nat} {seats s : List Seats} (hb : LawfulBallot bal)
    (hlen : votes.length = seats.length)
    (hrun : allocate_national bal total votes seats = some (.ok s p e)) :
    ∀ i, i < votes.length →
      frac (votes.getD i 0) 1 < frac votes.sum total →
      (∀ s0 : Seats, nationalCrit votes.sum total (votes.getD i 0) s0 = none) ∧
      (s.getD i Seats.unlimited).held =
        (seats.getD i Seats.unlimited).held := by
  intro i hiv hbelow
  have hS : 0 < total := by
    rcases Nat.eq_zero_or_pos total with h0 | h0
    · rw [h0, frac_zero_den] at hbelow
      exact absurd hbelow (not_lt.mpr (frac_nonneg _ _))
    · exact h0
  have hVi : votes.getD i 0 * total < votes.sum := by
    have := (frac_lt_frac_iff (votes.getD i 0) votes.sum Nat.one_pos hS).mp
      hbelow
    omega
  have habs : ∀ s0 : Seats,
      nationalCrit votes.sum total (votes.getD i 0) s0 = none := by
    intro s0
    unfold nationalCrit
    rw [if_neg]
    exact not_le.mpr hbelow
  refine ⟨habs, ?_⟩
  cases e with
  | true =>
    obtain ⟨hp, lwL, hreach, hex⟩ := go_ok_true_inv hrun
    exact reach_held_const hb habs hreach
  | false =>
    obtain ⟨hp, sL, lwL, hreach, hamc⟩ := go_ok_false_inv hrun
    have hconst : (sL.getD i Seats.unlimited).held =
        (seats.getD i Seats.unlimited).held :=
      reach_held_const hb habs hreach
    have hslen : sL.length = seats.length := (reach_conserve hb hreach).2.2
    rcases amc_some_inv hamc with ⟨hnone, hs⟩ | ⟨k, j, rest, hk, hbp, hs'⟩
    · rw [hs]; exact hconst
    · obtain ⟨hkv, hks, hcond, hfirst⟩ := amcFind_some_char hk
      obtain ⟨hjk, hjmem, hkheld, hjheld, hother, hsum, hlen'⟩ :=
        amc_fire_effect hb hks hbp hs'
      -- the fired winner passed the threshold, so it is not party i
      have hki : k ≠ i := by
        intro hki
        subst hki
        obtain ⟨hc, hmaj, hnomaj⟩ := hcond
        -- votes of k: strict majority, but below one quota
        rcases Nat.lt_or_ge total 2 with hS1 | hS2
        · -- one seat in total: the drained seat went to a party with at
          -- least all the votes, leaving none for k
          have htot : total = 1 := by omega
          subst htot
          have hcons := reach_conserve hb hreach
          have hsumlt : heldSum seats < heldSum sL := by
            obtain ⟨c1, c2, c3⟩ := hcons
            simp only [] at c1 c2 c3
            omega
          have hex2 : ∃ j2, j2 < seats.length ∧
              (seats.getD j2 Seats.unlimited).held <
                (sL.getD j2 Seats.unlimited).held := by
            by_contra hno
            push_neg at hno
            have hle : heldSum sL ≤ heldSum seats := by
              rw [heldSum_eq_range, heldSum_eq_range, hslen]
              refine Finset.sum_le_sum ?_
              intro j2 hj2
              exact hno j2 (Finset.mem_range.mp hj2)
            omega
          obtain ⟨j2, hj2s, hj2lt⟩ := hex2
          have hj2E : frac (votes.getD j2 0) 1 ≥ frac votes.sum 1 := by
            refine reach_gainers_E hb
              (fun v => frac v 1 ≥ frac votes.sum 1) ?_ hreach j2 hj2lt
            intro v s0 q hcq
            unfold nationalCrit at hcq
            by_cases hge : frac v 1 ≥ frac votes.sum 1
            · exact hge
            · rw [if_neg hge] at hcq; exact Option.noConfusion hcq
          have hj2V : votes.sum ≤ votes.getD j2 0 * 1 := by
            have := (frac_le_frac_iff votes.sum (votes.getD j2 0) Nat.one_pos
              Nat.one_pos).mp hj2E
            omega
          have hj2i : j2 ≠ k := by
            intro hji
            subst hji
            omega
          have hsum2 : votes.getD k 0 + votes.getD j2 0 ≤ votes.sum :=
            two_getD_le_sum votes hiv (by omega) (fun hij => hj2i hij.symm)
          omega
        · -- at least two seats: a strict majority clears one quota
          have : 2 * votes.getD k 0 ≤ votes.getD k 0 * total := by
            nlinarith
          omega
      -- the donor gained a seat in the final round, so it is not party i
      have hji : j ≠ i := by
        intro hji
        subst hji
        obtain ⟨hj1, hj2, hj3, hj4⟩ := mem_donorPool.mp hjmem
        rw [getD_set_ne sL (fun hkj => hki hkj) _] at hj3
        -- held of i in the snapshot equals its initial held
        have hlw : (lwL.getD j Seats.unlimited).held =
            (seats.getD j Seats.unlimited).held := by
          rcases reach_last hreach with heq | ⟨s2, p2, lw2, hr2, hp2, hst2, hlw2⟩
          · have : lwL = seats := congrArg LState.lastW heq.symm
            rw [this]
          · have : lwL = s2 := hlw2
            rw [this]
            exact reach_held_const hb habs hr2
        -- but sL's held of i also equals the initial held
        rw [hlw] at hj3
        omega
      rw [hs', getD_set_ne _ hji, getD_set_ne _ hki]
      exact hconst

/-- C6 witness: national election with two seats, votes 10 and 1; party 1
is below one quota (1 < 11/2), its quality is always absent, and it keeps
zero seats while party 0 takes both. -/
theorem C6_witness :
    (∀ s0 : Seats, nationalCrit (List.sum [10, 1]) 2 ([10, 1].getD 1 0) s0 =
      none) ∧
    (([(⟨2, none⟩ : Seats), ⟨0, none⟩].getD 1 Seats.unlimited).held =
      ([Seats.unlimited, Seats.unlimited].getD 1 Seats.unlimited).held) :=
  @C6_theorem takeBallot 2 0 false [10, 1]
    [Seats.unlimited, Seats.unlimited] [⟨2, none⟩, ⟨0, none⟩]
    takeBallot_lawful rfl (by decide) 1 (by decide) (by decide)

/-! ### Arithmetic characterisations of the surplus tests -/

theorem has_surplus_iff {V S v h : Nat} (hS : 0 < S) :
    has_surplus V S v h ↔ h * V ≤ v * S := by
  unfold has_surplus
  rw [ge_iff_le, frac_le_frac_iff (h * V) v hS Nat.one_pos, Nat.mul_one]

theorem quota34_iff {V S v : Nat} (hS : 0 < S) :
    quota34 V S v ↔ 3 * V ≤ v * (4 * S) := by
  unfold quota34
  rw [ge_iff_le, frac_le_frac_iff (3 * V) v (by omega) Nat.one_pos, Nat.mul_one]

theorem quota34_of_majority {V S v : Nat} (hS : 2 ≤ S) (hv : v ≤ V)
    (hmaj : 2 * v > V) : quota34 V S v := by
  rw [quota34_iff (by omega)]
  nlinarith

theorem has_surplus_antitone {V S v h h' : Nat} (hS : 0 < S) (hle : h ≤ h')
    (hs : has_surplus V S v h') : has_surplus V S v h := by
  rw [has_surplus_iff hS] at hs ⊢
  calc h * V ≤ h' * V := Nat.mul_le_mul_right _ hle
    _ ≤ v * S := hs

theorem surplusCrit1_some {V S v : Nat} {s0 : Seats} {q : Nat}
    (h : surplusCrit1 V S v s0 = some q) :
    has_surplus V S v s0.held ∧ quota34 V S v ∧ q = v * S - s0.held * V := by
  unfold surplusCrit1 at h
  split at h
  next hc =>
    refine ⟨hc.1, hc.2, ?_⟩
    injection h with h'
    exact h'.symm
  next hc => exact absurd h (by simp)

theorem surplusCrit1_none {V S v : Nat} {s0 : Seats}
    (h : surplusCrit1 V S v s0 = none) :
    ¬(has_surplus V S v s0.held ∧ quota34 V S v) := by
  unfold surplusCrit1 at h
  split at h
  next hc => exact absurd h (by simp)
  next hc => exact hc

theorem surplusCrit1_of {V S v : Nat} (s0 : Seats)
    (h1 : has_surplus V S v s0.held) (h2 : quota34 V S v) :
    surplusCrit1 V S v s0 = some (v * S - s0.held * V) := by
  unfold surplusCrit1
  rw [if_pos ⟨h1, h2⟩]
  rfl

theorem nat_sub_cross {a b c d : Nat} (h : a - b ≤ c - d) (h1 : b ≤ a)
    (h2 : d ≤ c) : a + d ≤ c + b := by omega

/-! ### Zero-held ledgers -/

theorem heldSum_zero {l : List Seats} (hz : ∀ x ∈ l, x.held = 0) :
    heldSum l = 0 := by
  unfold heldSum
  apply List.sum_eq_zero
  intro x hx
  obtain ⟨y, hy, hxy⟩ := List.mem_map.mp hx
  rw [← hxy]
  exact hz y hy

theorem getD_zero {l : List Seats} (hz : ∀ x ∈ l, x.held = 0) (j : Nat) :
    (l.getD j Seats.unlimited).held = 0 := by
  by_cases hj : j < l.length
  · rw [getD_eq_getElem _ _ hj]
    exact hz _ (List.getElem_mem hj)
  · rw [List.getD_eq_default _ _ (by omega)]
    rfl

/-! ### The shape of a corrector panic -/

theorem ballot_one_nil {bal : Ballot} (hb : LawfulBallot bal) {l : List Nat}
    (h : bal l 1 = []) : l = [] := by
  have hlen := hb.len l 1
  rw [h] at hlen
  simp only [List.length_nil] at hlen
  have h0 : l.length = 0 := by omega
  exact List.eq_nil_of_length_eq_zero h0

theorem amc_panic_fire {bal : Ballot} {votes : List Nat}
    {sL lwL : List Seats} (hb : LawfulBallot bal)
    (h : absolute_majority_check bal votes sL lwL = none) :
    ∃ w, w < votes.length ∧ w < sL.length ∧
      amcCond votes sL votes.sum (heldSum sL) w ∧
      donorPool (sL.set w (sL.getD w Seats.unlimited).gain) lwL
        ((sL.getD w Seats.unlimited).held + 1) = [] := by
  obtain ⟨k, hfind, hbp⟩ := amc_none_inv h
  obtain ⟨hkv, hks, hcond, _⟩ := amcFind_some_char hfind
  refine ⟨k, hkv, hks, hcond, ?_⟩
  have hnil := ballot_one_nil hb hbp
  rw [getD_set_self sL hks] at hnil
  simpa [Seats.gain] using hnil

/-! ### Cross-multiplied sums over all parties but the winner -/

theorem cross_sum_bound (A B : Nat) {votes : List Nat} {seats : List Seats}
    {w : Nat}
    (hlen : votes.length = seats.length) (hwv : w < votes.length)
    (hpairs : ∀ j, j < votes.length → j ≠ w →
      B * (seats.getD j Seats.unlimited).held ≤ votes.getD j 0 * A) :
    ∃ vr hr, votes.getD w 0 + vr = votes.sum ∧
      (seats.getD w Seats.unlimited).held + hr = heldSum seats ∧
      B * hr ≤ vr * A := by
  have hws : w < seats.length := by omega
  refine ⟨∑ j ∈ (Finset.range votes.length).erase w, votes.getD j 0,
    ∑ j ∈ (Finset.range votes.length).erase w,
      (seats.getD j Seats.unlimited).held, ?_, ?_, ?_⟩
  · rw [sum_eq_range_getD]
    exact Finset.add_sum_erase _ (fun i => votes.getD i 0)
      (Finset.mem_range.mpr hwv)
  · rw [heldSum_eq_range, ← hlen]
    exact Finset.add_sum_erase _
      (fun i => (seats.getD i Seats.unlimited).held)
      (Finset.mem_range.mpr hwv)
  · rw [Finset.mul_sum, Finset.sum_mul]
    refine Finset.sum_le_sum ?_
    intro j hj
    obtain ⟨hne, hr⟩ := Finset.mem_erase.mp hj
    exact hpairs j (Finset.mem_range.mp hr) hne

theorem cross_sum_surplus (S V c d : Nat) {votes : List Nat}
    {seats : List Seats} {w : Nat}
    (hlen : votes.length = seats.length) (hwv : w < votes.length)
    (hpairs : ∀ j, j < votes.length → j ≠ w →
      1 ≤ (seats.getD j Seats.unlimited).held →
      d + (seats.getD j Seats.unlimited).held * V ≤ votes.getD j 0 * S + c) :
    ∃ m vr hr, votes.getD w 0 + vr = votes.sum ∧
      (seats.getD w Seats.unlimited).held + hr = heldSum seats ∧
      m * d + hr * V ≤ vr * S + m * c := by
  have hws : w < seats.length := by omega
  refine ⟨(((Finset.range votes.length).erase w).filter
      (fun j => 1 ≤ (seats.getD j Seats.unlimited).held)).card,
    ∑ j ∈ (Finset.range votes.length).erase w, votes.getD j 0,
    ∑ j ∈ (Finset.range votes.length).erase w,
      (seats.getD j Seats.unlimited).held, ?_, ?_, ?_⟩
  · rw [sum_eq_range_getD]
    exact Finset.add_sum_erase _ (fun i => votes.getD i 0)
      (Finset.mem_range.mpr hwv)
  · rw [heldSum_eq_range, ← hlen]
    exact Finset.add_sum_erase _
      (fun i => (seats.getD i Seats.unlimited).held)
      (Finset.mem_range.mpr hwv)
  · have hMh : ∑ j ∈ ((Finset.range votes.length).erase w).filter
        (fun j => 1 ≤ (seats.getD j Seats.unlimited).held),
        (seats.getD j Seats.unlimited).held =
        ∑ j ∈ (Finset.range votes.length).erase w,
          (seats.getD j Seats.unlimited).held := by
      refine Finset.sum_filter_of_ne ?_
      intro j hj hne
      omega
    have hMv : ∑ j ∈ ((Finset.range votes.length).erase w).filter
        (fun j => 1 ≤ (seats.getD j Seats.unlimited).held), votes.getD j 0 ≤
        ∑ j ∈ (Finset.range votes.length).erase w, votes.getD j 0 :=
      Finset.sum_le_sum_of_subset_of_nonneg (Finset.filter_subset _ _)
        (fun _ _ _ => Nat.zero_le _)
    have hmain : ∑ j ∈ ((Finset.range votes.length).erase w).filter
        (fun j => 1 ≤ (seats.getD j Seats.unlimited).held),
        (d + (seats.getD j Seats.unlimited).held * V) ≤
        ∑ j ∈ ((Finset.range votes.length).erase w).filter
          (fun j => 1 ≤ (seats.getD j Seats.unlimited).held),
          (votes.getD j 0 * S + c) := by
      refine Finset.sum_le_sum ?_
      intro j hj
      obtain ⟨hjE, hj1⟩ := Finset.mem_filter.mp hj
      obtain ⟨hne, hr⟩ := Finset.mem_erase.mp hjE
      exact hpairs j (Finset.mem_range.mp hr) hne hj1
    rw [Finset.sum_add_distrib, Finset.sum_add_distrib, Finset.sum_const,
      Finset.sum_const, smul_eq_mul, smul_eq_mul, ← Finset.sum_mul,
      ← Finset.sum_mul, hMh] at hmain
    calc (((Finset.range votes.length).erase w).filter
          (fun j => 1 ≤ (seats.getD j Seats.unlimited).held)).card * d +
        (∑ j ∈ (Finset.range votes.length).erase w,
          (seats.getD j Seats.unlimited).held) * V ≤ _ := hmain
      _ ≤ (∑ j ∈ (Finset.range votes.length).erase w, votes.getD j 0) * S +
          (((Finset.range votes.length).erase w).filter
            (fun j => 1 ≤ (seats.getD j Seats.unlimited).held)).card * c :=
        Nat.add_le_add_right (Nat.mul_le_mul_right _ hMv) _

/-! ### Transport of the running invariants along the loop -/

/-- The d'Hondt invariant is preserved along the loop for any criterion
whose present value is votes over held-plus-one and whose presence is
exactly candidacy plus a held-independent eligibility test. -/
theorem reach_dhInv {bal : Ballot} {crit : Nat → Seats → Option ℚ}
    {votes : List Nat} {eligB : Nat → Bool} (hb : LawfulBallot bal)
    (hshape : ∀ v s0 q, crit v s0 = some q → q = frac v (s0.held + 1))
    (hfull : ∀ v s0, s0.has_candidates = true → eligB v = true →
      crit v s0 ≠ none)
    {x y : LState} (hreach : Reach bal crit votes x y)
    (hx : dhInv votes (fun v _ => eligB v) x.seats) :
    dhInv votes (fun v _ => eligB v) y.seats := by
  refine reach_pres (dhInv votes (fun v _ => eligB v)) ?_ hreach hx
  intro s p s' p' hp hstep hinv
  obtain ⟨m, sel, hm, hbal, hnd, hsel, hs', hpe, hlenq⟩ :=
    stepped_skeleton hb hstep
  have hlen' : s'.length = s.length := by rw [hs', length_award]
  intro j i hjs' his' hjv hiv hj1 hci hei
  have hjs : j < s.length := by omega
  have his : i < s.length := by omega
  have hgj : s'.getD j Seats.unlimited =
      if j ∈ sel then (s.getD j Seats.unlimited).gain
      else s.getD j Seats.unlimited := by
    rw [hs']; exact award_getD sel s hjs
  have hgi := stepped_held hb hstep i
  have hci_old : (s.getD i Seats.unlimited).has_candidates = true :=
    cand_antitone hgi.1 hgi.2 hci
  have heiB : eligB (votes.getD i 0) = true := hei
  by_cases hjsel : j ∈ sel
  · obtain ⟨hjv', hjs'', hcj, hcritj⟩ := awarded_quality (hsel j hjsel)
    have hmval : m = frac (votes.getD j 0)
        ((s.getD j Seats.unlimited).held + 1) := hshape _ _ _ hcritj
    have hexq : ∃ q, crit (votes.getD i 0) (s.getD i Seats.unlimited) =
        some q := by
      cases hcq : crit (votes.getD i 0) (s.getD i Seats.unlimited) with
      | none => exact absurd hcq (hfull _ _ hci_old heiB)
      | some q => exact ⟨q, rfl⟩
    obtain ⟨q, hq⟩ := hexq
    have hqv : q = frac (votes.getD i 0)
        ((s.getD i Seats.unlimited).held + 1) := hshape _ _ _ hq
    have hle := quality_le_max hm hiv his hci_old hq
    rw [hqv, hmval] at hle
    have hcross : votes.getD i 0 * ((s.getD j Seats.unlimited).held + 1) ≤
        votes.getD j 0 * ((s.getD i Seats.unlimited).held + 1) :=
      (frac_le_frac_iff _ _ (by omega) (by omega)).mp hle
    have hjh : (s'.getD j Seats.unlimited).held =
        (s.getD j Seats.unlimited).held + 1 := by
      rw [hgj, if_pos hjsel]
      rfl
    rw [hjh]
    calc votes.getD i 0 * ((s.getD j Seats.unlimited).held + 1)
        ≤ votes.getD j 0 * ((s.getD i Seats.unlimited).held + 1) := hcross
      _ ≤ votes.getD j 0 * ((s'.getD i Seats.unlimited).held + 1) :=
        Nat.mul_le_mul_left _ (by have := hgi.1; omega)
  · have hjh : (s'.getD j Seats.unlimited).held =
        (s.getD j Seats.unlimited).held := by
      rw [hgj, if_neg hjsel]
    have hold := hinv j i hjs his hjv hiv (by rw [hjh] at hj1; exact hj1)
      hci_old heiB
    rw [hjh]
    calc votes.getD i 0 * (s.getD j Seats.unlimited).held
        ≤ votes.getD j 0 * ((s.getD i Seats.unlimited).held + 1) := hold
      _ ≤ votes.getD j 0 * ((s'.getD i Seats.unlimited).held + 1) :=
        Nat.mul_le_mul_left _ (by have := hgi.1; omega)

/-- The surplus invariant is preserved along the phase-one loop. -/
theorem reach_sInv {bal : Ballot} {votes : List Nat} {V S : Nat}
    (hb : LawfulBallot bal) (hS : 0 < S)
    {x y : LState} (hreach : Reach bal (surplusCrit1 V S) votes x y)
    (hx : sInv votes V S x.seats) : sInv votes V S y.seats := by
  refine reach_pres (sInv votes V S) ?_ hreach hx
  intro s p s' p' hp hstep hinv
  obtain ⟨m, sel, hm, hbal, hnd, hsel, hs', hpe, hlenq⟩ :=
    stepped_skeleton hb hstep
  have hlen' : s'.length = s.length := by rw [hs', length_award]
  intro j i hjs' his' hjv hiv hj1 hci hsur hq34
  have hjs : j < s.length := by omega
  have his : i < s.length := by omega
  have hgj : s'.getD j Seats.unlimited =
      if j ∈ sel then (s.getD j Seats.unlimited).gain
      else s.getD j Seats.unlimited := by
    rw [hs']; exact award_getD sel s hjs
  have hgi := stepped_held hb hstep i
  have hci_old : (s.getD i Seats.unlimited).has_candidates = true :=
    cand_antitone hgi.1 hgi.2 hci
  have hsur_old : has_surplus V S (votes.getD i 0)
      (s.getD i Seats.unlimited).held :=
    has_surplus_antitone hS hgi.1 hsur
  have hmulV : (s.getD i Seats.unlimited).held * V ≤
      (s'.getD i Seats.unlimited).held * V :=
    Nat.mul_le_mul_right _ hgi.1
  by_cases hjsel : j ∈ sel
  · obtain ⟨hjv', hjs'', hcj, hcritj⟩ := awarded_quality (hsel j hjsel)
    obtain ⟨hsurj, hq34j, hmval⟩ := surplusCrit1_some hcritj
    have hqi := surplusCrit1_of (s.getD i Seats.unlimited) hsur_old hq34
    have hle := quality_le_max hm hiv his hci_old hqi
    rw [hmval] at hle
    have e1 : (s.getD i Seats.unlimited).held * V ≤ votes.getD i 0 * S :=
      (has_surplus_iff hS).mp hsur_old
    have e2 : (s.getD j Seats.unlimited).held * V ≤ votes.getD j 0 * S :=
      (has_surplus_iff hS).mp hsurj
    have hcross := nat_sub_cross hle e1 e2
    have hjh : (s'.getD j Seats.unlimited).held =
        (s.getD j Seats.unlimited).held + 1 := by
      rw [hgj, if_pos hjsel]
      rfl
    rw [hjh]
    calc votes.getD i 0 * S + ((s.getD j Seats.unlimited).held + 1) * V
        = votes.getD i 0 * S + (s.getD j Seats.unlimited).held * V + V := by
          ring
      _ ≤ votes.getD j 0 * S + (s.getD i Seats.unlimited).held * V + V := by
          have := hcross
          linarith
      _ = votes.getD j 0 * S + V + (s.getD i Seats.unlimited).held * V := by
          ring
      _ ≤ votes.getD j 0 * S + V + (s'.getD i Seats.unlimited).held * V :=
        Nat.add_le_add_left hmulV _
  · have hjh : (s'.getD j Seats.unlimited).held =
        (s.getD j Seats.unlimited).held := by
      rw [hgj, if_neg hjsel]
    have hold := hinv j i hjs his hjv hiv (by rw [hjh] at hj1; exact hj1)
      hci_old hsur_old hq34
    rw [hjh]
    calc votes.getD i 0 * S + (s.getD j Seats.unlimited).held * V
        ≤ votes.getD j 0 * S + V + (s.getD i Seats.unlimited).held * V := hold
      _ ≤ votes.getD j 0 * S + V + (s'.getD i Seats.unlimited).held * V :=
        Nat.add_le_add_left hmulV _

/-- The invariants hold vacuously on a zero-held ledger. -/
theorem dhInv_of_zero {votes : List Nat} {elig : Nat → Nat → Bool}
    {seats0 : List Seats} (hz : ∀ x ∈ seats0, x.held = 0) :
    dhInv votes elig seats0 := by
  intro j i _ _ _ _ hj1 _ _
  exfalso
  have := getD_zero hz j
  omega

theorem sInv_of_zero {votes : List Nat} {V S : Nat} {seats0 : List Seats}
    (hz : ∀ x ∈ seats0, x.held = 0) : sInv votes V S seats0 := by
  intro j i _ _ _ _ hj1 _ _ _
  exfalso
  have := getD_zero hz j
  omega

/-! ### The final round of a drained loop -/

theorem drain_last_round {Q : Type} [LinearOrder Q] {bal : Ballot}
    {crit : Nat → Seats → Option Q} {votes : List Nat}
    {seats0 sL lwL : List Seats} {S : Nat} (hb : LawfulBallot bal)
    (hS : 0 < S)
    (hreach : Reach bal crit votes ⟨seats0, S, seats0⟩ ⟨sL, 0, lwL⟩) :
    ∃ spre ppre lw2 m sel,
      Reach bal crit votes ⟨seats0, S, seats0⟩ ⟨spre, ppre, lw2⟩ ∧
      0 < ppre ∧ lwL = spre ∧
      rustMax (qualities crit votes spre) = some (some m) ∧
      sel ≠ [] ∧ sel.Nodup ∧
      (∀ g ∈ sel, g ∈ awardedIdx (qualities crit votes spre) m) ∧
      sL = award sel spre ∧ spre.length = sL.length ∧
      heldSum sL = heldSum spre + sel.length := by
  rcases reach_last hreach with heq | ⟨spre, ppre, lw2, hr, hp, hstep, hlw⟩
  · exfalso
    have hpe : (⟨seats0, S, seats0⟩ : LState).pool =
        (⟨sL, 0, lwL⟩ : LState).pool := by rw [heq]
    simp only [] at hpe
    omega
  · obtain ⟨m, sel, hm, hbal, hnd, hsel, hs', hpe, hlenq⟩ :=
      stepped_skeleton hb hstep
    have hs2 : sL = award sel spre := hs'
    have hpe2 : 0 = ppre - sel.length := hpe
    refine ⟨spre, ppre, lw2, m, sel, hr, hp, hlw, hm, ?_, hnd, hsel, hs2,
      ?_, ?_⟩
    · intro hnil
      rw [hnil] at hpe2
      simp only [List.length_nil] at hpe2
      omega
    · rw [hs2, length_award]
    · rw [hs2]
      exact heldSum_award hnd (sel_lt_length hsel)

/-- If the corrector returns a ledger and every firing condition implies
the two-seat bound, every majority party with candidates ends with a
strict seat majority. -/
theorem amc_ok_majority {bal : Ballot} {votes : List Nat}
    {sL lwL s : List Seats} (hb : LawfulBallot bal)
    (hamc : absolute_majority_check bal votes sL lwL = some s)
    (hlen : votes.length = sL.length)
    (hbound : ∀ w, w < votes.length →
      amcCond votes sL votes.sum (heldSum sL) w →
      heldSum sL ≤ 2 * (sL.getD w Seats.unlimited).held + 1) :
    ∀ i, i < votes.length → 2 * votes.getD i 0 > votes.sum →
      (s.getD i Seats.unlimited).has_candidates = true →
      2 * (s.getD i Seats.unlimited).held > heldSum s := by
  intro i hiv hmaj hcand
  rcases amc_some_inv hamc with ⟨hfind, hs⟩ | ⟨k, j, rest, hfind, hbp, hs⟩
  · subst hs
    have hcond := amcFind_none_char hfind i hiv (by omega)
    by_contra hc
    exact hcond ⟨hcand, hmaj, by omega⟩
  · obtain ⟨hkv, hks, hcondk, _⟩ := amcFind_some_char hfind
    obtain ⟨hjk, hjmem, hkheld, hjheld, hother, hsum, hlen'⟩ :=
      amc_fire_effect hb hks hbp hs
    have hik : i = k := by
      by_contra hne
      have h2 := two_getD_le_sum votes hiv hkv hne
      obtain ⟨_, hmk, _⟩ := hcondk
      omega
    subst hik
    have hb2 := hbound i hiv hcondk
    rw [hsum, hkheld]
    omega

/-! ### Bounds at a corrector firing, from the invariants -/

/-- At a firing of the corrector after a drained averages-style loop, the
total of held seats is at most one more than twice the winner's count. -/
theorem fire_bound_avgfam (crit : Nat → Seats → Option ℚ)
    (eligB : Nat → Bool) {bal : Ballot}
    {votes : List Nat} {seats0 sL lwL : List Seats}
    {S : Nat} (hb : LawfulBallot bal)
    (hshape : ∀ v s0 q, crit v s0 = some q → q = frac v (s0.held + 1))
    (hfull : ∀ v s0, s0.has_candidates = true → eligB v = true →
      crit v s0 ≠ none)
    (hlen : votes.length = seats0.length)
    (hzero : ∀ x ∈ seats0, x.held = 0)
    (hreach : Reach bal crit votes ⟨seats0, S, seats0⟩ ⟨sL, 0, lwL⟩)
    {w : Nat} (hwv : w < votes.length)
    (hcond : amcCond votes sL votes.sum (heldSum sL) w)
    (heligw : eligB (votes.getD w 0) = true) :
    heldSum sL ≤ 2 * (sL.getD w Seats.unlimited).held + 1 := by
  obtain ⟨hc, hmaj, hns⟩ := hcond
  have hvw_le : votes.getD w 0 ≤ votes.sum := getD_le_sum votes hwv
  have hvw1 : 1 ≤ votes.getD w 0 := by omega
  have hdh : dhInv votes (fun v _ => eligB v) sL :=
    reach_dhInv hb hshape hfull hreach (dhInv_of_zero hzero)
  have hlsL : sL.length = seats0.length := (reach_conserve hb hreach).2.2
  have hlen2 : votes.length = sL.length := by omega
  have hws : w < sL.length := by omega
  obtain ⟨vr, hr, hv, hh, hbd⟩ := cross_sum_bound
    ((sL.getD w Seats.unlimited).held + 1) (votes.getD w 0)
    hlen2 hwv (by
      intro j hjv hjw
      by_cases hj1 : 1 ≤ (sL.getD j Seats.unlimited).held
      · exact hdh j w (by omega) hws hjv hwv hj1 hc heligw
      · have hz : (sL.getD j Seats.unlimited).held = 0 := by omega
        rw [hz, Nat.mul_zero]
        exact Nat.zero_le _)
  by_contra hgt
  push_neg at hgt
  have h1 : (sL.getD w Seats.unlimited).held + 2 ≤ hr := by omega
  have h2 : vr + 1 ≤ votes.getD w 0 := by omega
  have h3 : votes.getD w 0 * ((sL.getD w Seats.unlimited).held + 2) ≤
      votes.getD w 0 * hr := Nat.mul_le_mul_left _ h1
  have h4 : (vr + 1) * ((sL.getD w Seats.unlimited).held + 1) ≤
      votes.getD w 0 * ((sL.getD w Seats.unlimited).held + 1) :=
    Nat.mul_le_mul_right _ h2
  nlinarith [hbd, h3, h4]

/-- Same bound for the drained phase-one surplus loop. -/
theorem fire_bound_sur1 {bal : Ballot} {votes : List Nat}
    {seats0 sL lwL : List Seats} {S : Nat} (hb : LawfulBallot bal)
    (hlen : votes.length = seats0.length)
    (hzero : ∀ x ∈ seats0, x.held = 0)
    (hreach : Reach bal (surplusCrit1 votes.sum S) votes
      ⟨seats0, S, seats0⟩ ⟨sL, 0, lwL⟩)
    {w : Nat} (hwv : w < votes.length)
    (hcond : amcCond votes sL votes.sum (heldSum sL) w) :
    heldSum sL ≤ 2 * (sL.getD w Seats.unlimited).held + 1 := by
  have hcons := reach_conserve hb hreach
  have hz0 : heldSum seats0 = 0 := heldSum_zero hzero
  have hT : heldSum sL = S := by
    obtain ⟨c1, c2, c3⟩ := hcons
    simp only [] at c1 c2 c3
    omega
  by_cases hS2 : 2 ≤ S
  · obtain ⟨hc, hmaj, hns⟩ := hcond
    have hvw_le : votes.getD w 0 ≤ votes.sum := getD_le_sum votes hwv
    have hvw1 : 1 ≤ votes.getD w 0 := by omega
    have hq34 : quota34 votes.sum S (votes.getD w 0) :=
      quota34_of_majority hS2 hvw_le hmaj
    have hhw2 : 2 * (sL.getD w Seats.unlimited).held ≤ S := by omega
    have hsur : has_surplus votes.sum S (votes.getD w 0)
        (sL.getD w Seats.unlimited).held := by
      rw [has_surplus_iff (by omega)]
      have e1 : 2 * (sL.getD w Seats.unlimited).held * votes.sum ≤
          S * votes.sum := Nat.mul_le_mul_right _ hhw2
      have e2 : (votes.sum + 1) * S ≤ 2 * votes.getD w 0 * S :=
        Nat.mul_le_mul_right _ (by omega)
      nlinarith
    have hsv : sInv votes votes.sum S sL :=
      reach_sInv hb (by omega) hreach (sInv_of_zero hzero)
    have hlsL : sL.length = seats0.length := hcons.2.2
    have hlen2 : votes.length = sL.length := by omega
    have hws : w < sL.length := by omega
    obtain ⟨m, vr, hr, hv, hh, hbd⟩ := cross_sum_surplus S votes.sum
      (votes.sum + (sL.getD w Seats.unlimited).held * votes.sum)
      (votes.getD w 0 * S) hlen2 hwv (by
        intro j hjv hjw hj1
        have := hsv j w (by omega) hws hjv hwv hj1 hc hsur hq34
        linarith)
    by_contra hgt
    push_neg at hgt
    rw [hT] at hh
    have e3 : votes.getD w 0 * S + vr * S = votes.sum * S := by
      rw [← Nat.add_mul, hv]
    have e4 : (sL.getD w Seats.unlimited).held * votes.sum +
        hr * votes.sum = S * votes.sum := by
      rw [← Nat.add_mul, hh]
    have key : (m + 1) * (votes.getD w 0 * S) ≤
        (m + 1) * ((sL.getD w Seats.unlimited).held * votes.sum) +
          m * votes.sum := by linarith [hbd, e3, e4]
    have e5 : (m + 1) * ((votes.sum + 1) * S) ≤
        (m + 1) * (2 * votes.getD w 0 * S) :=
      Nat.mul_le_mul_left _ (Nat.mul_le_mul_right _ (by omega))
    have e7 : (m + 1) * ((votes.sum + 1) *
        (2 * (sL.getD w Seats.unlimited).held + 2)) ≤
        (m + 1) * ((votes.sum + 1) * S) :=
      Nat.mul_le_mul_left _ (Nat.mul_le_mul_left _ (by omega))
    nlinarith [key, e5, e7]
  · omega

theorem nat_sub_cross_eq {a b c d : Nat} (h : a - b = c - d) (h1 : b ≤ a)
    (h2 : d ≤ c) : a + d = c + b := by omega

theorem surplusCrit2_some {V S v : Nat} {s0 : Seats} {q : ℚ}
    (h : surplusCrit2 V S v s0 = some q) : q = frac v (s0.held + 1) := by
  unfold surplusCrit2 at h
  split at h
  next hc =>
    split at h
    next hh =>
      injection h with h'
      exact h'.symm
    next hh => exact absurd h (by simp)
  next hc =>
    split at h
    next hh =>
      injection h with h'
      exact h'.symm
    next hh => exact absurd h (by simp)

theorem sel_singleton {sel : List Nat} {w : Nat} (hnd : sel.Nodup)
    (hne : sel ≠ []) (hall : ∀ g ∈ sel, g = w) : sel = [w] := by
  cases sel with
  | nil => exact absurd rfl hne
  | cons a t =>
    have ha : a = w := hall a (List.mem_cons_self a t)
    cases t with
    | nil => rw [ha]
    | cons b t2 =>
      exfalso
      have hb : b = w := hall b (by simp)
      have hnab : a ∉ b :: t2 := (List.nodup_cons.mp hnd).1
      rw [ha, hb] at hnab
      exact hnab (List.mem_cons_self w t2)

/-! ### Donor existence at a corrector firing -/

/-- A corrector panic is impossible after a drained averages-style loop on
a zero-held ledger, provided a strict majority of the votes implies
eligibility. -/
theorem no_panic_avgfam (crit : Nat → Seats → Option ℚ)
    (eligB : Nat → Bool) {bal : Ballot}
    {votes : List Nat} {seats0 sL lwL : List Seats}
    {S : Nat} (hb : LawfulBallot bal)
    (hshape : ∀ v s0 q, crit v s0 = some q → q = frac v (s0.held + 1))
    (hfull : ∀ v s0, s0.has_candidates = true → eligB v = true →
      crit v s0 ≠ none)
    (hwel : ∀ v, v ≤ votes.sum → 2 * v > votes.sum → eligB v = true)
    (hlen : votes.length = seats0.length)
    (hzero : ∀ x ∈ seats0, x.held = 0) (hS : 1 ≤ S)
    (hreach : Reach bal crit votes ⟨seats0, S, seats0⟩ ⟨sL, 0, lwL⟩)
    (hamc : absolute_majority_check bal votes sL lwL = none) : False := by
  obtain ⟨w, hwv, hws, hcond, hempty⟩ := amc_panic_fire hb hamc
  obtain ⟨hc, hmaj, hns⟩ := hcond
  have hvw_le := getD_le_sum votes hwv
  have hvw1 : 1 ≤ votes.getD w 0 := by omega
  have heligw : eligB (votes.getD w 0) = true := hwel _ hvw_le hmaj
  have hcons := reach_conserve hb hreach
  have hz0 := heldSum_zero hzero
  have hT : heldSum sL = S := by
    obtain ⟨c1, c2, c3⟩ := hcons
    simp only [] at c1 c2 c3
    omega
  have hlsL : sL.length = seats0.length := hcons.2.2
  obtain ⟨spre, ppre, lw2, m, sel, hrpre, hppre, hlwe, hm, hselne, hnd,
    hselaw, hsL, hplen, hhsum⟩ := drain_last_round hb (by omega) hreach
  rw [hlwe] at hempty
  have hdonor : ∀ j, j ≠ w → j < sL.length →
      (spre.getD j Seats.unlimited).held <
        (sL.getD j Seats.unlimited).held →
      (sL.getD j Seats.unlimited).held =
        (sL.getD w Seats.unlimited).held + 1 := by
    intro j hjw hjlt hlt
    by_contra hne
    have hmem : j ∈ donorPool (sL.set w (sL.getD w Seats.unlimited).gain)
        spre ((sL.getD w Seats.unlimited).held + 1) := by
      refine mem_donorPool.mpr ⟨?_, ?_, ?_, ?_⟩
      · rw [List.length_set]; exact hjlt
      · omega
      · rw [getD_set_ne sL (fun h => hjw h.symm) _]
        exact hlt
      · rw [getD_set_ne sL (fun h => hjw h.symm) _]
        exact hne
    rw [hempty] at hmem
    exact absurd hmem (List.not_mem_nil j)
  have hround : ∀ g, g < spre.length →
      sL.getD g Seats.unlimited =
        (if g ∈ sel then (spre.getD g Seats.unlimited).gain
         else spre.getD g Seats.unlimited) := by
    intro g hg
    rw [hsL]
    exact award_getD sel spre hg
  by_cases hgex : ∃ g ∈ sel, g ≠ w
  · obtain ⟨g, hgsel, hgw⟩ := hgex
    obtain ⟨hgv, hgs, hcg, hcritg⟩ := awarded_quality (hselaw g hgsel)
    have hmval : m = frac (votes.getD g 0)
        ((spre.getD g Seats.unlimited).held + 1) := hshape _ _ _ hcritg
    have hgheld : (sL.getD g Seats.unlimited).held =
        (spre.getD g Seats.unlimited).held + 1 := by
      rw [hround g hgs, if_pos hgsel]
      rfl
    have hgdon : (sL.getD g Seats.unlimited).held =
        (sL.getD w Seats.unlimited).held + 1 :=
      hdonor g hgw (by omega) (by omega)
    have hsum2 := two_getD_le_sum votes hgv hwv hgw
    have hvgw : votes.getD g 0 < votes.getD w 0 := by omega
    by_cases hwsel : w ∈ sel
    · obtain ⟨hwv', hws', hcw, hcritw⟩ := awarded_quality (hselaw w hwsel)
      have hmvalw : m = frac (votes.getD w 0)
          ((spre.getD w Seats.unlimited).held + 1) := hshape _ _ _ hcritw
      have hwheld : (sL.getD w Seats.unlimited).held =
          (spre.getD w Seats.unlimited).held + 1 := by
        rw [hround w hws', if_pos hwsel]
        rfl
      have hspg : (spre.getD g Seats.unlimited).held =
          (spre.getD w Seats.unlimited).held + 1 := by omega
      have heqq : frac (votes.getD g 0)
          ((spre.getD g Seats.unlimited).held + 1) =
          frac (votes.getD w 0)
            ((spre.getD w Seats.unlimited).held + 1) := by
        rw [← hmval, ← hmvalw]
      rw [hspg] at heqq
      have hcross := (frac_eq_frac_iff _ _ (by omega) (by omega)).mp heqq
      have hmul : (votes.getD g 0 + 1) *
          ((spre.getD w Seats.unlimited).held + 1 + 1) ≤
          votes.getD w 0 * ((spre.getD w Seats.unlimited).held + 1 + 1) :=
        Nat.mul_le_mul_right _ (by omega)
      nlinarith [hcross, hmul]
    · have hwheld : (sL.getD w Seats.unlimited).held =
          (spre.getD w Seats.unlimited).held := by
        rw [hround w (by omega), if_neg hwsel]
      have hentry : sL.getD w Seats.unlimited =
          spre.getD w Seats.unlimited := by
        rw [hround w (by omega), if_neg hwsel]
      have hcw_pre : (spre.getD w Seats.unlimited).has_candidates = true := by
        rw [← hentry]
        exact hc
      have hexq : ∃ q, crit (votes.getD w 0) (spre.getD w Seats.unlimited) =
          some q := by
        cases hcq : crit (votes.getD w 0) (spre.getD w Seats.unlimited) with
        | none => exact absurd hcq (hfull _ _ hcw_pre heligw)
        | some q => exact ⟨q, rfl⟩
      obtain ⟨q, hq⟩ := hexq
      have hqv : q = frac (votes.getD w 0)
          ((spre.getD w Seats.unlimited).held + 1) := hshape _ _ _ hq
      have hle := quality_le_max hm hwv (by omega) hcw_pre hq
      have hspg : (spre.getD g Seats.unlimited).held =
          (spre.getD w Seats.unlimited).held := by omega
      rw [hqv, hmval, hspg] at hle
      have hcross := (frac_le_frac_iff _ _ (by omega) (by omega)).mp hle
      have hvle : votes.getD w 0 ≤ votes.getD g 0 :=
        Nat.le_of_mul_le_mul_right hcross (by omega)
      omega
  · push_neg at hgex
    obtain ⟨g0, hg0⟩ := List.exists_mem_of_ne_nil sel hselne
    have hwsel : w ∈ sel := by
      have := hgex g0 hg0
      rw [← this]
      exact hg0
    have hsel_eq : sel = [w] := sel_singleton hnd hselne hgex
    obtain ⟨hwv', hws', hcw, hcritw⟩ := awarded_quality (hselaw w hwsel)
    have hwheld : (sL.getD w Seats.unlimited).held =
        (spre.getD w Seats.unlimited).held + 1 := by
      rw [hround w hws', if_pos hwsel]
      rfl
    have hdh : dhInv votes (fun v _ => eligB v) spre :=
      reach_dhInv hb hshape hfull hrpre (dhInv_of_zero hzero)
    have hTpre : heldSum spre + 1 = S := by
      rw [hsel_eq] at hhsum
      simp only [List.length_cons, List.length_nil] at hhsum
      omega
    have hlen2 : votes.length = spre.length := by omega
    obtain ⟨vr, hr, hv, hh, hbd⟩ := cross_sum_bound
      ((spre.getD w Seats.unlimited).held + 1) (votes.getD w 0)
      hlen2 hwv (by
        intro j hjv hjw
        by_cases hj1 : 1 ≤ (spre.getD j Seats.unlimited).held
        · exact hdh j w (by omega) (by omega) hjv hwv hj1 hcw heligw
        · have hz : (spre.getD j Seats.unlimited).held = 0 := by omega
          rw [hz, Nat.mul_zero]
          exact Nat.zero_le _)
    have hr_ge : (spre.getD w Seats.unlimited).held + 1 ≤ hr := by omega
    have hvr : vr + 1 ≤ votes.getD w 0 := by omega
    have hm1 : votes.getD w 0 * ((spre.getD w Seats.unlimited).held + 1) ≤
        votes.getD w 0 * hr := Nat.mul_le_mul_left _ hr_ge
    have hm2 : (vr + 1) * ((spre.getD w Seats.unlimited).held + 1) ≤
        votes.getD w 0 * ((spre.getD w Seats.unlimited).held + 1) :=
      Nat.mul_le_mul_right _ hvr
    linarith [hbd, hm1, hm2]

/-- A corrector panic is impossible after a drained single-seat
national-threshold loop on a zero-held ledger. -/
theorem no_panic_nat1 {bal : Ballot} {votes : List Nat}
    {seats0 sL lwL : List Seats} (hb : LawfulBallot bal)
    (hlen : votes.length = seats0.length)
    (hzero : ∀ x ∈ seats0, x.held = 0)
    (hreach : Reach bal (nationalCrit votes.sum 1) votes
      ⟨seats0, 1, seats0⟩ ⟨sL, 0, lwL⟩)
    (hamc : absolute_majority_check bal votes sL lwL = none) : False := by
  obtain ⟨w, hwv, hws, hcond, hempty⟩ := amc_panic_fire hb hamc
  obtain ⟨hc, hmaj, hns⟩ := hcond
  have hcons := reach_conserve hb hreach
  have hz0 := heldSum_zero hzero
  have hT : heldSum sL = 1 := by
    obtain ⟨c1, c2, c3⟩ := hcons
    simp only [] at c1 c2 c3
    omega
  have hhw : (sL.getD w Seats.unlimited).held = 0 := by omega
  obtain ⟨spre, ppre, lw2, m, sel, hrpre, hppre, hlwe, hm, hselne, hnd,
    hselaw, hsL, hplen, hhsum⟩ := drain_last_round hb Nat.one_pos hreach
  obtain ⟨g, hgsel⟩ := List.exists_mem_of_ne_nil sel hselne
  obtain ⟨hgv, hgs, hcg, hcritg⟩ := awarded_quality (hselaw g hgsel)
  have hgheld : (sL.getD g Seats.unlimited).held =
      (spre.getD g Seats.unlimited).held + 1 := by
    rw [hsL, award_getD sel spre hgs, if_pos hgsel]
    rfl
  have hgw : g ≠ w := by
    intro h
    rw [h] at hgheld
    omega
  have helig : votes.sum ≤ votes.getD g 0 := by
    unfold nationalCrit at hcritg
    by_cases hge : frac (votes.getD g 0) 1 ≥ frac votes.sum 1
    · have := (frac_le_frac_iff votes.sum (votes.getD g 0) Nat.one_pos
        Nat.one_pos).mp hge
      omega
    · rw [if_neg hge] at hcritg
      exact absurd hcritg (by simp)
  have hsum2 := two_getD_le_sum votes hgv hwv hgw
  omega

/-- A corrector panic is impossible after a drained phase-one surplus loop
on a zero-held ledger. -/
theorem no_panic_sur1 {bal : Ballot} {votes : List Nat}
    {seats0 sL lwL : List Seats} {S : Nat} (hb : LawfulBallot bal)
    (hlen : votes.length = seats0.length)
    (hzero : ∀ x ∈ seats0, x.held = 0) (hS : 1 ≤ S)
    (hreach : Reach bal (surplusCrit1 votes.sum S) votes
      ⟨seats0, S, seats0⟩ ⟨sL, 0, lwL⟩)
    (hamc : absolute_majority_check bal votes sL lwL = none) : False := by
  obtain ⟨w, hwv, hws, hcond, hempty⟩ := amc_panic_fire hb hamc
  obtain ⟨hc, hmaj, hns⟩ := hcond
  have hvw_le := getD_le_sum votes hwv
  have hvw1 : 1 ≤ votes.getD w 0 := by omega
  have hcons := reach_conserve hb hreach
  have hz0 := heldSum_zero hzero
  have hT : heldSum sL = S := by
    obtain ⟨c1, c2, c3⟩ := hcons
    simp only [] at c1 c2 c3
    omega
  have hlsL : sL.length = seats0.length := hcons.2.2
  obtain ⟨spre, ppre, lw2, m, sel, hrpre, hppre, hlwe, hm, hselne, hnd,
    hselaw, hsL, hplen, hhsum⟩ := drain_last_round hb (by omega) hreach
  rw [hlwe] at hempty
  have hround : ∀ g, g < spre.length →
      sL.getD g Seats.unlimited =
        (if g ∈ sel then (spre.getD g Seats.unlimited).gain
         else spre.getD g Seats.unlimited) := by
    intro g hg
    rw [hsL]
    exact award_getD sel spre hg
  by_cases hS2 : 2 ≤ S
  · have hq34 : quota34 votes.sum S (votes.getD w 0) :=
      quota34_of_majority hS2 hvw_le hmaj
    have hhw2 : 2 * (sL.getD w Seats.unlimited).held ≤ S := by omega
    have hsur : has_surplus votes.sum S (votes.getD w 0)
        (sL.getD w Seats.unlimited).held := by
      rw [has_surplus_iff (by omega)]
      have e1 : 2 * (sL.getD w Seats.unlimited).held * votes.sum ≤
          S * votes.sum := Nat.mul_le_mul_right _ hhw2
      have e2 : (votes.sum + 1) * S ≤ 2 * votes.getD w 0 * S :=
        Nat.mul_le_mul_right _ (by omega)
      nlinarith
    have hdonor : ∀ j, j ≠ w → j < sL.length →
        (spre.getD j Seats.unlimited).held <
          (sL.getD j Seats.unlimited).held →
        (sL.getD j Seats.unlimited).held =
          (sL.getD w Seats.unlimited).held + 1 := by
      intro j hjw hjlt hlt
      by_contra hne
      have hmem : j ∈ donorPool (sL.set w (sL.getD w Seats.unlimited).gain)
          spre ((sL.getD w Seats.unlimited).held + 1) := by
        refine mem_donorPool.mpr ⟨?_, ?_, ?_, ?_⟩
        · rw [List.length_set]; exact hjlt
        · omega
        · rw [getD_set_ne sL (fun h => hjw h.symm) _]
          exact hlt
        · rw [getD_set_ne sL (fun h => hjw h.symm) _]
          exact hne
      rw [hempty] at hmem
      exact absurd hmem (List.not_mem_nil j)
    by_cases hgex : ∃ g ∈ sel, g ≠ w
    · obtain ⟨g, hgsel, hgw⟩ := hgex
      obtain ⟨hgv, hgs, hcg, hcritg⟩ := awarded_quality (hselaw g hgsel)
      obtain ⟨hsurg, hq34g, hmval⟩ := surplusCrit1_some hcritg
      have hgheld : (sL.getD g Seats.unlimited).held =
          (spre.getD g Seats.unlimited).held + 1 := by
        rw [hround g hgs, if_pos hgsel]
        rfl
      have hgdon : (sL.getD g Seats.unlimited).held =
          (sL.getD w Seats.unlimited).held + 1 :=
        hdonor g hgw (by omega) (by omega)
      have hsum2 := two_getD_le_sum votes hgv hwv hgw
      have hvgw : votes.getD g 0 < votes.getD w 0 := by omega
      have heg : (spre.getD g Seats.unlimited).held * votes.sum ≤
          votes.getD g 0 * S := (has_surplus_iff (by omega)).mp hsurg
      by_cases hwsel : w ∈ sel
      · obtain ⟨hwv', hws', hcw, hcritw⟩ := awarded_quality (hselaw w hwsel)
        obtain ⟨hsurw, hq34w, hmvalw⟩ := surplusCrit1_some hcritw
        have hwheld : (sL.getD w Seats.unlimited).held =
            (spre.getD w Seats.unlimited).held + 1 := by
          rw [hround w hws', if_pos hwsel]
          rfl
        have hspg : (spre.getD g Seats.unlimited).held =
            (spre.getD w Seats.unlimited).held + 1 := by omega
        have hew : (spre.getD w Seats.unlimited).held * votes.sum ≤
            votes.getD w 0 * S := (has_surplus_iff (by omega)).mp hsurw
        have heqm : votes.getD g 0 * S -
            (spre.getD g Seats.unlimited).held * votes.sum =
            votes.getD w 0 * S -
              (spre.getD w Seats.unlimited).held * votes.sum := by
          rw [← hmval, ← hmvalw]
        have hcr := nat_sub_cross_eq heqm heg hew
        rw [hspg] at hcr
        -- v_g S + spre_w V = v_w S + (spre_w + 1) V
        have hm3 : (votes.getD g 0 + 1) * S ≤ votes.getD w 0 * S :=
          Nat.mul_le_mul_right _ (by omega)
        linarith [hcr, hm3]
      · have hwheld : (sL.getD w Seats.unlimited).held =
            (spre.getD w Seats.unlimited).held := by
          rw [hround w (by omega), if_neg hwsel]
        have hentry : sL.getD w Seats.unlimited =
            spre.getD w Seats.unlimited := by
          rw [hround w (by omega), if_neg hwsel]
        have hcw_pre : (spre.getD w Seats.unlimited).has_candidates =
            true := by
          rw [← hentry]
          exact hc
        have hsur_pre : has_surplus votes.sum S (votes.getD w 0)
            (spre.getD w Seats.unlimited).held := by
          rw [← hwheld]
          exact hsur
        have hq := surplusCrit1_of (spre.getD w Seats.unlimited)
          hsur_pre hq34
        have hle := quality_le_max hm hwv (by omega) hcw_pre hq
        rw [hmval] at hle
        have hew : (spre.getD w Seats.unlimited).held * votes.sum ≤
            votes.getD w 0 * S := (has_surplus_iff (by omega)).mp hsur_pre
        have hcr := nat_sub_cross hle hew heg
        have hspg : (spre.getD g Seats.unlimited).held =
            (spre.getD w Seats.unlimited).held := by omega
        rw [hspg] at hcr
        -- v_w S + spre_w V ≤ v_g S + spre_w V
        have hvle : votes.getD w 0 ≤ votes.getD g 0 := by
          have hSle : votes.getD w 0 * S ≤ votes.getD g 0 * S := by
            linarith [hcr]
          exact Nat.le_of_mul_le_mul_right hSle (by omega)
        omega
    · push_neg at hgex
      have hwsel : w ∈ sel := by
        obtain ⟨g0, hg0⟩ := List.exists_mem_of_ne_nil sel hselne
        have := hgex g0 hg0
        rw [← this]
        exact hg0
      have hsel_eq : sel = [w] := sel_singleton hnd hselne hgex
      obtain ⟨hwv', hws', hcw, hcritw⟩ := awarded_quality (hselaw w hwsel)
      obtain ⟨hsurw, hq34w, hmvalw⟩ := surplusCrit1_some hcritw
      have hwheld : (sL.getD w Seats.unlimited).held =
          (spre.getD w Seats.unlimited).held + 1 := by
        rw [hround w hws', if_pos hwsel]
        rfl
      have hsv : sInv votes votes.sum S spre :=
        reach_sInv hb (by omega) hrpre (sInv_of_zero hzero)
      have hTpre : heldSum spre + 1 = S := by
        rw [hsel_eq] at hhsum
        simp only [List.length_cons, List.length_nil] at hhsum
        omega
      have hlen2 : votes.length = spre.length := by omega
      obtain ⟨m2, vr, hr, hv, hh, hbd⟩ := cross_sum_surplus S votes.sum
        (votes.sum + (spre.getD w Seats.unlimited).held * votes.sum)
        (votes.getD w 0 * S) hlen2 hwv (by
          intro j hjv hjw hj1
          have := hsv j w (by omega) (by omega) hjv hwv hj1 hcw hsurw hq34w
          linarith)
      have e3 : votes.getD w 0 * S + vr * S = votes.sum * S := by
        rw [← Nat.add_mul, hv]
      have e4 : (spre.getD w Seats.unlimited).held * votes.sum +
          hr * votes.sum = heldSum spre * votes.sum := by
        rw [← Nat.add_mul, hh]
      have e8 : (heldSum spre + 1) * votes.sum = S * votes.sum := by
        rw [hTpre]
      have key : (m2 + 1) * (votes.getD w 0 * S) ≤
          (m2 + 1) * (((spre.getD w Seats.unlimited).held + 1) *
            votes.sum) := by linarith [hbd, e3, e4, e8]
      have hvwT : votes.getD w 0 * S ≤
          ((spre.getD w Seats.unlimited).held + 1) * votes.sum :=
        Nat.le_of_mul_le_mul_left key (by omega)
      have e9 : 2 * ((spre.getD w Seats.unlimited).held + 1) * votes.sum ≤
          S * votes.sum :=
        Nat.mul_le_mul_right _ (by omega)
      have e10 : (votes.sum + 1) * S ≤ 2 * votes.getD w 0 * S :=
        Nat.mul_le_mul_right _ (by omega)
      linarith [hvwT, e9, e10]
  · -- a single seat: the drained seat went to a party clearing three
    -- quarters of a quota, impossible next to a strict majority
    have hS1 : S = 1 := by omega
    obtain ⟨g, hgsel⟩ := List.exists_mem_of_ne_nil sel hselne
    obtain ⟨hgv, hgs, hcg, hcritg⟩ := awarded_quality (hselaw g hgsel)
    obtain ⟨hsurg, hq34g, hmval⟩ := surplusCrit1_some hcritg
    have hgheld : (sL.getD g Seats.unlimited).held =
        (spre.getD g Seats.unlimited).held + 1 := by
      rw [hround g hgs, if_pos hgsel]
      rfl
    have hhw : (sL.getD w Seats.unlimited).held = 0 := by omega
    have hgw : g ≠ w := by
      intro h
      rw [h, hhw] at hgheld
      omega
    have hq34' : 3 * votes.sum ≤ votes.getD g 0 * 4 := by
      have := (quota34_iff (by omega)).mp hq34g
      rw [hS1] at this
      omega
    have hsum2 := two_getD_le_sum votes hgv hwv hgw
    omega

/-- The corrector cannot fire at all at the end of the second surplus
phase on an originally zero-held ledger. -/
theorem phase2_no_cond {bal : Ballot} {votes : List Nat}
    {seats0 s1 lw1 s2L lw2 : List Seats} {S p1 : Nat}
    (hb : LawfulBallot bal)
    (hlen : votes.length = seats0.length)
    (hzero : ∀ x ∈ seats0, x.held = 0) (hS : 1 ≤ S)
    (hreach1 : Reach bal (surplusCrit1 votes.sum S) votes
      ⟨seats0, S, seats0⟩ ⟨s1, p1, lw1⟩)
    (hex : allocate_single_step bal (surplusCrit1 votes.sum S) votes s1 p1 =
      .exhausted)
    (hp1 : 0 < p1)
    (hreach2 : Reach bal (surplusCrit2 votes.sum S) votes
      ⟨s1, p1, s1⟩ ⟨s2L, 0, lw2⟩)
    {w : Nat} (hwv : w < votes.length)
    (hcond : amcCond votes s2L votes.sum (heldSum s2L) w) : False := by
  obtain ⟨hc, hmaj, hns⟩ := hcond
  have hvw_le := getD_le_sum votes hwv
  have hvw1 : 1 ≤ votes.getD w 0 := by omega
  have hz0 := heldSum_zero hzero
  have hcons1 := reach_conserve hb hreach1
  have hcons2 := reach_conserve hb hreach2
  have hT1 : heldSum s1 + p1 = S := by
    obtain ⟨c1, c2, c3⟩ := hcons1
    simp only [] at c1 c2 c3
    omega
  have hT : heldSum s2L = S := by
    obtain ⟨c1, c2, c3⟩ := hcons2
    simp only [] at c1 c2 c3
    omega
  have hl1 : s1.length = seats0.length := hcons1.2.2
  have hl2 : s2L.length = s1.length := hcons2.2.2
  have hmono := reach_held_mono hb hreach2 w
  have hcs1 : (s1.getD w Seats.unlimited).has_candidates = true := by
    refine cand_antitone ?_ ?_ hc
    · exact hmono.1
    · exact hmono.2
  by_cases hS2 : 2 ≤ S
  · have habs := step_exhausted_crit_none hex hwv (by omega) hcs1
    have hq34 : quota34 votes.sum S (votes.getD w 0) :=
      quota34_of_majority hS2 hvw_le hmaj
    have hnothas : ¬has_surplus votes.sum S (votes.getD w 0)
        (s1.getD w Seats.unlimited).held :=
      fun hh => surplusCrit1_none habs ⟨hh, hq34⟩
    rw [has_surplus_iff (by omega)] at hnothas
    push_neg at hnothas
    -- v_w S < h1 V, h1 ≤ h2, 2 h2 ≤ S, 2 v_w ≥ V + 1
    have hm1 : (s1.getD w Seats.unlimited).held * votes.sum ≤
        (s2L.getD w Seats.unlimited).held * votes.sum :=
      Nat.mul_le_mul_right _ hmono.1
    have hm2 : 2 * (s2L.getD w Seats.unlimited).held * votes.sum ≤
        S * votes.sum := Nat.mul_le_mul_right _ (by omega)
    have hm3 : (votes.sum + 1) * S ≤ 2 * votes.getD w 0 * S :=
      Nat.mul_le_mul_right _ (by omega)
    nlinarith [hnothas, hm1, hm2, hm3]
  · have hS1 : S = 1 := by omega
    have hhw : (s2L.getD w Seats.unlimited).held = 0 := by omega
    obtain ⟨spre, ppre, lw3, m, sel, hrpre, hppre, hlwe, hm, hselne, hnd,
      hselaw, hsL2, hplen2, hhsum2⟩ := drain_last_round hb hp1 hreach2
    have hround : ∀ g, g < spre.length →
        s2L.getD g Seats.unlimited =
          (if g ∈ sel then (spre.getD g Seats.unlimited).gain
           else spre.getD g Seats.unlimited) := by
      intro g hg
      rw [hsL2]
      exact award_getD sel spre hg
    obtain ⟨g, hgsel⟩ := List.exists_mem_of_ne_nil sel hselne
    obtain ⟨hgv, hgs, hcg, hcritg⟩ := awarded_quality (hselaw g hgsel)
    have hmval : m = frac (votes.getD g 0)
        ((spre.getD g Seats.unlimited).held + 1) := surplusCrit2_some hcritg
    have hgheld : (s2L.getD g Seats.unlimited).held =
        (spre.getD g Seats.unlimited).held + 1 := by
      rw [hround g hgs, if_pos hgsel]
      rfl
    have hgw : g ≠ w := by
      intro h
      rw [h, hhw] at hgheld
      omega
    have hwsel : w ∉ sel := by
      intro hwin
      have : (s2L.getD w Seats.unlimited).held =
          (spre.getD w Seats.unlimited).held + 1 := by
        rw [hround w (by omega), if_pos hwin]
        rfl
      omega
    have hentry : s2L.getD w Seats.unlimited = spre.getD w Seats.unlimited := by
      rw [hround w (by omega), if_neg hwsel]
    have hcw_pre : (spre.getD w Seats.unlimited).has_candidates = true := by
      rw [← hentry]
      exact hc
    have hwheld_pre : (spre.getD w Seats.unlimited).held = 0 := by
      rw [← hentry]
      exact hhw
    have hq : surplusCrit2 votes.sum S (votes.getD w 0)
        (spre.getD w Seats.unlimited) = some (frac (votes.getD w 0) 1) := by
      unfold surplusCrit2
      have hc0 : (spre.getD w Seats.unlimited).count = 0 := hwheld_pre
      rw [hc0]
      split
      · rw [if_pos (has_surplus_zero votes.sum S (votes.getD w 0))]
      · rw [if_pos (has_surplus_zero votes.sum S (votes.getD w 0))]
    have hle := quality_le_max hm hwv (by omega) hcw_pre hq
    rw [hmval] at hle
    have hcross := (frac_le_frac_iff _ _ Nat.one_pos (by omega)).mp hle
    -- v_w * (spre_g + 1) ≤ v_g * 1
    have hsum2 := two_getD_le_sum votes hgv hwv hgw
    have hge : votes.getD w 0 ≤ votes.getD w 0 *
        ((spre.getD g Seats.unlimited).held + 1) :=
      Nat.le_mul_of_pos_right _ (by omega)
    omega

/-! ### Shape and eligibility facts for the concrete criteria -/

theorem avgCrit_shape : ∀ (v : Nat) (s0 : Seats) (q : ℚ),
    avgCrit v s0 = some q → q = frac v (s0.held + 1) := by
  intro v s0 q h
  unfold avgCrit at h
  injection h with h'
  exact h'.symm

theorem avgCrit_full : ∀ (v : Nat) (s0 : Seats),
    s0.has_candidates = true → (fun _ : Nat => true) v = true →
    avgCrit v s0 ≠ none := by
  intro v s0 _ _
  unfold avgCrit
  simp

theorem nationalCrit_shape (V S : Nat) : ∀ (v : Nat) (s0 : Seats) (q : ℚ),
    nationalCrit V S v s0 = some q → q = frac v (s0.held + 1) := by
  intro v s0 q h
  unfold nationalCrit at h
  split at h
  · injection h with h'
    exact h'.symm
  · exact absurd h (by simp)

theorem nationalCrit_full (V S : Nat) : ∀ (v : Nat) (s0 : Seats),
    s0.has_candidates = true →
    (fun v0 => decide (frac v0 1 ≥ frac V S)) v = true →
    nationalCrit V S v s0 ≠ none := by
  intro v s0 _ he
  unfold nationalCrit
  rw [if_pos (of_decide_eq_true he)]
  simp

theorem nationalCrit_majority_elig {V S v : Nat} (hS2 : 2 ≤ S) (hv : v ≤ V)
    (hmaj : 2 * v > V) : decide (frac v 1 ≥ frac V S) = true := by
  refine decide_eq_true ?_
  rw [ge_iff_le, frac_le_frac_iff V v (by omega) Nat.one_pos]
  nlinarith

/-! ### Claim C2 -/

/-- C2 counterexample: a national run over votes 6 and 4 with one seat;
both parties are below one quota, the loop ends exhausted, and the
corrector is skipped: party 0 has a strict vote majority and candidates
but no seat at all, with one seat available. -/
theorem C2_counterexample :
    allocate_national takeBallot 1 [6, 4]
      [Seats.unlimited, Seats.unlimited] =
      some (.ok [⟨0, none⟩, ⟨0, none⟩] 1 true) ∧
    2 * [6, 4].getD 0 0 > List.sum [6, 4] ∧
    ((⟨0, none⟩ : Seats)).has_candidates = true ∧
    ¬(2 * ((⟨0, none⟩ : Seats)).held > 1) := by
  refine ⟨by decide, by decide, by decide, by decide⟩

/-- C2 (amended): on a zero-held ledger, when allocate or
allocate_national returns without the final loop having ended exhausted,
every party with a strict majority of the votes that still has candidates
holds a strict majority of the seats in the final ledger. -/
theorem C2_amended_theorem {bal : Ballot} {total p : Nat}
    {votes : List Nat} {seats s : List Seats} (hb : LawfulBallot bal)
    (hlen : votes.length = seats.length)
    (hzero : ∀ x ∈ seats, x.held = 0)
    (hrun : allocate bal total votes seats = some (.ok s p false) ∨
      allocate_national bal total votes seats = some (.ok s p false)) :
    ∀ i, i < votes.length → 2 * votes.getD i 0 > votes.sum →
      (s.getD i Seats.unlimited).has_candidates = true →
      2 * (s.getD i Seats.unlimited).held > heldSum s := by
  rcases hrun with h | h
  · unfold allocate at h
    by_cases h19 : total ≥ 19
    · rw [if_pos h19] at h
      unfold allocate_per_average at h
      obtain ⟨hp, sL, lwL, hreach, hamc⟩ := go_ok_false_inv h
      have hlsL : sL.length = seats.length := (reach_conserve hb hreach).2.2
      refine amc_ok_majority hb hamc (by omega) ?_
      intro w hwv hcond
      exact fire_bound_avgfam avgCrit (fun _ => true) hb avgCrit_shape
        avgCrit_full hlen hzero hreach hwv hcond rfl
    · rw [if_neg h19] at h
      obtain ⟨s1, p1, e1, hph1, hrest⟩ := per_surplus_inv h
      have hfacts1 := allocate_seats_ok_facts hb hph1
      rcases hrest with ⟨hp1, hph2⟩ | ⟨hp1, hs, hpp, he⟩
      · have he1 : e1 = true := by
          cases e1 with
          | false => exact absurd (hfacts1.2.2.1 rfl) (by omega)
          | true => rfl
        subst he1
        obtain ⟨hp0, lw1, hreach1, hex⟩ := go_ok_true_inv hph1
        obtain ⟨hp2, s2L, lw2, hreach2, hamc⟩ := go_ok_false_inv hph2
        have hl2 : s2L.length = s1.length := (reach_conserve hb hreach2).2.2
        refine amc_ok_majority hb hamc (by omega) ?_
        intro w hwv hcond
        exact (phase2_no_cond hb hlen hzero (by omega) hreach1 hex hp1
          hreach2 hwv hcond).elim
      · subst hs
        subst hpp
        have he1 : e1 = false := he.symm
        subst he1
        obtain ⟨hp0, sL, lwL, hreach, hamc⟩ := go_ok_false_inv hph1
        have hlsL : sL.length = seats.length := (reach_conserve hb hreach).2.2
        refine amc_ok_majority hb hamc (by omega) ?_
        intro w hwv hcond
        exact fire_bound_sur1 hb hlen hzero hreach hwv hcond
  · unfold allocate_national at h
    obtain ⟨hp, sL, lwL, hreach, hamc⟩ := go_ok_false_inv h
    have hlsL : sL.length = seats.length := (reach_conserve hb hreach).2.2
    refine amc_ok_majority hb hamc (by omega) ?_
    intro w hwv hcond
    by_cases hS2 : 2 ≤ total
    · refine fire_bound_avgfam (nationalCrit votes.sum total)
        (fun v => decide (frac v 1 ≥ frac votes.sum total)) hb
        (nationalCrit_shape votes.sum total)
        (nationalCrit_full votes.sum total) hlen hzero hreach hwv hcond ?_
      have hvw_le := getD_le_sum votes hwv
      exact nationalCrit_majority_elig hS2 hvw_le hcond.2.1
    · have hz0 := heldSum_zero hzero
      have hcons := reach_conserve hb hreach
      have hT : heldSum sL = total := by
        obtain ⟨c1, c2, c3⟩ := hcons
        simp only [] at c1 c2 c3
        omega
      omega

/-- C2 witness: national election, two seats, votes 10 and 1; party 0 has
a strict vote majority, ends with both seats, and two seats out of two is
a strict majority. -/
theorem C2_witness :
    2 * (([(⟨2, none⟩ : Seats), ⟨0, none⟩]).getD 0 Seats.unlimited).held >
      heldSum [(⟨2, none⟩ : Seats), ⟨0, none⟩] :=
  @C2_amended_theorem takeBallot 2 0 [10, 1]
    [Seats.unlimited, Seats.unlimited] [⟨2, none⟩, ⟨0, none⟩]
    takeBallot_lawful rfl (by decide) (Or.inr (by decide)) 0 (by decide)
    (by decide) (by decide)

/-! ### Claim C8 -/

/-- C8 counterexample: the donor set can be empty, making the unwrap of
the one-element lottery panic.  With zero total seats the corrector still
fires for a majority party at zero held seats but no party gained a seat;
with a non-zero held count on another ledger the only last-round gainer
is the winner itself, excluded by held-count equality. -/
theorem C8_counterexample :
    allocate takeBallot 0 [1] [Seats.unlimited] = some .amcPanic ∧
    allocate_national takeBallot 1 [5, 0]
      [Seats.unlimited, ⟨5, some 5⟩] = some .amcPanic := by
  refine ⟨by decide, by decide⟩

/-- C8 (amended): on well-formed zero-held ledgers with at least one seat
to distribute, the corrector's donor set is never empty on any reachable
call, so allocate and allocate_national never panic on the donor
lottery's unwrap. -/
theorem C8_amended_theorem {bal : Ballot} {total : Nat} {votes : List Nat}
    {seats : List Seats} (hb : LawfulBallot bal)
    (hlen : votes.length = seats.length)
    (hzero : ∀ x ∈ seats, x.held = 0) (hS : 1 ≤ total) :
    allocate bal total votes seats ≠ some .amcPanic ∧
    allocate_national bal total votes seats ≠ some .amcPanic := by
  constructor
  · intro h
    unfold allocate at h
    by_cases h19 : total ≥ 19
    · rw [if_pos h19] at h
      unfold allocate_per_average at h
      obtain ⟨sL, lwL, hreach, hamc⟩ := go_amcPanic_inv h
      exact no_panic_avgfam avgCrit (fun _ => true) hb avgCrit_shape
        avgCrit_full (fun _ _ _ => rfl) hlen hzero hS hreach hamc
    · rw [if_neg h19] at h
      unfold allocate_per_surplus at h
      split at h
      next s1 p1 e1 hph1 =>
        have hfacts1 := allocate_seats_ok_facts hb hph1
        by_cases hp1 : 0 < p1
        · rw [if_pos hp1] at h
          have he1 : e1 = true := by
            cases e1 with
            | false => exact absurd (hfacts1.2.2.1 rfl) (by omega)
            | true => rfl
          subst he1
          obtain ⟨hp0, lw1, hreach1, hex⟩ := go_ok_true_inv hph1
          obtain ⟨s2L, lw2, hreach2, hamc⟩ := go_amcPanic_inv h
          obtain ⟨w, hwv, hws, hcond, hempty⟩ := amc_panic_fire hb hamc
          exact phase2_no_cond hb hlen hzero hS hreach1 hex hp1 hreach2
            hwv hcond
        · rw [if_neg hp1] at h
          simp at h
      next r hno =>
        obtain ⟨sL, lwL, hreach, hamc⟩ := go_amcPanic_inv h
        exact no_panic_sur1 hb hlen hzero hS hreach hamc
  · intro h
    unfold allocate_national at h
    obtain ⟨sL, lwL, hreach, hamc⟩ := go_amcPanic_inv h
    by_cases hS2 : 2 ≤ total
    · refine no_panic_avgfam (nationalCrit votes.sum total)
        (fun v => decide (frac v 1 ≥ frac votes.sum total)) hb
        (nationalCrit_shape votes.sum total)
        (nationalCrit_full votes.sum total) ?_ hlen hzero hS hreach hamc
      intro v hv hmaj
      exact nationalCrit_majority_elig hS2 hv hmaj
    · have hS1 : total = 1 := by omega
      subst hS1
      exact no_panic_nat1 hb hlen hzero hreach hamc

/-- C8 witness: a two-seat election with votes 3 and 1 on unbounded
zero-held ledgers neither panics under allocate nor under
allocate_national. -/
theorem C8_witness :
    allocate takeBallot 2 [3, 1] [Seats.unlimited, Seats.unlimited] ≠
      some .amcPanic ∧
    allocate_national takeBallot 2 [3, 1]
      [Seats.unlimited, Seats.unlimited] ≠ some .amcPanic :=
  @C8_amended_theorem takeBallot 2 [3, 1]
    [Seats.unlimited, Seats.unlimited] takeBallot_lawful rfl (by decide)
    (by decide)

end ElectionChecker
